import Mathlib

/-
  Verification development for the ReCode recursive-expansion engine.

  This file gives a shallow embedding, in Lean 4, of the core of the ReCode
  repository:

  * `utils/executor.py`     — the fragment evaluator (`Executor._run_block`,
    `_is_preserved_variable`, `_infer_type_string`, `set_var`/`get_var`);
  * `agents/recode/utils.py` — the code tree (`CodeNode.next`), the splitter
    and validator (`split_blocks`, `validate_blocks`) and the prompt-variable
    renderer (`get_variables`);
  * `agents/recode/agent.py` — the stub-handling / expansion loop
    (`ReCodeAgent._handle_stub`, `ReCodeAgent._expand`);
  * `utils/common.py`       — `parse_xml_tag`.

  Python-specific machinery that the embedded code calls into (the CPython
  parser `ast.parse`, the incremental compiler `codeop.CommandCompiler`, and
  the effect of `exec` on a namespace) is represented by oracles: a
  `PyFrontend` structure for parsing/compiling, and a `Block.sem` function
  giving the outcome of executing a block against a namespace.  Everything
  written in the repository itself (classification of failures, namespace
  copy-back, traversal, retry loop, validation walk, rendering) is translated
  directly.

  Python `dict`s are modelled as insertion-ordered association lists with
  update-in-place semantics (`dictSet`), matching CPython's dict ordering.
-/

namespace ReCode

/-- Model of Python runtime values, as far as the engine inspects them.
`module`/`function`/`builtinFunction`/`method`/`classV` are the "non-data"
values that `Executor._is_preserved_variable` filters out; `obj` stands for
any other object, carrying its type name.  (Floats are omitted from the
model; no claim depends on float behaviour.) -/
inductive Value where
  | none
  | bool (b : Bool)
  | int (n : Int)
  | str (s : String)
  | list (elems : List Value)
  | tuple (elems : List Value)
  | setV (elems : List Value)
  | dict (items : List (Value × Value))
  | module (name : String)
  | function (name : String)
  | builtinFunction (name : String)
  | method (name : String)
  | classV (name : String)
  | obj (typeName : String)
deriving Repr

/-- Python's `type(value).__name__` for the modelled values. -/
def Value.typeName : Value → String
  | .none => "NoneType"
  | .bool _ => "bool"
  | .int _ => "int"
  | .str _ => "str"
  | .list _ => "list"
  | .tuple _ => "tuple"
  | .setV _ => "set"
  | .dict _ => "dict"
  | .module _ => "module"
  | .function _ => "function"
  | .builtinFunction _ => "builtin_function_or_method"
  | .method _ => "method"
  | .classV _ => "type"
  | .obj t => t

/-- The `isinstance(value, (types.ModuleType, types.FunctionType,
types.BuiltinFunctionType, types.MethodType, type))` test of
`Executor._is_preserved_variable`. -/
def Value.isNonData : Value → Bool
  | .module _ => true
  | .function _ => true
  | .builtinFunction _ => true
  | .method _ => true
  | .classV _ => true
  | _ => false

mutual
/-- `Executor._infer_type_string(value, depth, max_depth)` from
`utils/executor.py`.  Python's five-element sample `value[:5]` is modelled by
the bound argument of `inferVals`; the set comprehensions over element types
are modelled by `List.dedup` (only the cardinality and the unique member of
the set are ever used, so the set's iteration order is irrelevant).  The
source's early `if depth > max_depth: return type(value).__name__` is
distributed into the per-constructor arms here (observationally identical:
for every non-container the guarded fallback coincides with the arm's own
result, and for a container it is the bare container type name, which is
what each `depth > max_depth` branch below returns).  The source's
`try/except` wrapper never fires in the model (no operation here raises). -/
def inferTypeString (maxDepth depth : Nat) : Value → String
  | .none => "NoneType"
  | .bool b => (Value.bool b).typeName
  | .int n => (Value.int n).typeName
  | .str s => (Value.str s).typeName
  | .list es =>
    if depth > maxDepth then "list"
    else
      match es with
      | [] => "list"
      | _ =>
        let ts := (inferVals maxDepth (depth + 1) 5 es).dedup
        if ts.length = 1 then "list[" ++ ts.headI ++ "]" else "list"
  | .tuple es =>
    if depth > maxDepth then "tuple"
    else
      match es with
      | [] => "tuple"
      | _ =>
        let ts := inferVals maxDepth (depth + 1) 5 es
        if ts.all (fun t => t = ts.headI) then "tuple[" ++ ts.headI ++ "]"
        else "tuple[" ++ String.intercalate ", " ts ++ "]"
  | .setV es =>
    if depth > maxDepth then "set"
    else
      match es with
      | [] => "set"
      | _ =>
        let ts := (inferVals maxDepth (depth + 1) 5 es).dedup
        if ts.length = 1 then "set[" ++ ts.headI ++ "]" else "set"
  | .dict items =>
    if depth > maxDepth then "dict"
    else
      match items with
      | [] => "dict"
      | _ =>
        let kts := (inferKeys maxDepth (depth + 1) 5 items).dedup
        let vts := (inferItemVals maxDepth (depth + 1) 5 items).dedup
        if kts.length = 1 && vts.length = 1 then
          "dict[" ++ kts.headI ++ ", " ++ vts.headI ++ "]"
        else "dict"
  | .module n => (Value.module n).typeName
  | .function n => (Value.function n).typeName
  | .builtinFunction n => (Value.builtinFunction n).typeName
  | .method n => (Value.method n).typeName
  | .classV n => (Value.classV n).typeName
  | .obj n => (Value.obj n).typeName

/-- Element types of the first `n` values (models `value[:5]` sampling). -/
def inferVals (maxDepth depth : Nat) : Nat → List Value → List String
  | _, [] => []
  | 0, _ => []
  | n + 1, v :: vs => inferTypeString maxDepth depth v :: inferVals maxDepth depth n vs

/-- Key types of the first `n` dict items. -/
def inferKeys (maxDepth depth : Nat) : Nat → List (Value × Value) → List String
  | _, [] => []
  | 0, _ => []
  | n + 1, (k, _) :: rest => inferTypeString maxDepth depth k :: inferKeys maxDepth depth n rest

/-- Value types of the first `n` dict items. -/
def inferItemVals (maxDepth depth : Nat) : Nat → List (Value × Value) → List String
  | _, [] => []
  | 0, _ => []
  | n + 1, (_, v) :: rest => inferTypeString maxDepth depth v :: inferItemVals maxDepth depth n rest
end

/-! ### Python dicts as insertion-ordered association lists -/

/-- Dict lookup (first matching key; under the no-duplicate-keys invariant
this is the unique binding). -/
def lookupD (m : List (String × Value)) (k : String) : Option Value :=
  match m with
  | [] => Option.none
  | (k', v) :: rest => if k' = k then some v else lookupD rest k

/-- Dict assignment `m[k] = v`: replaces in place if the key is present
(keeping insertion order, as CPython does), otherwise appends. -/
def dictSet (m : List (String × Value)) (k : String) (v : Value) : List (String × Value) :=
  if m.any (fun p => p.1 = k) then
    m.map (fun p => if p.1 = k then (k, v) else p)
  else m ++ [(k, v)]

/-- `{**base, **vars}`: a fresh dict holding `base` updated by `vars`. -/
def dictMerge (base vars : List (String × Value)) : List (String × Value) :=
  vars.foldl (fun acc p => dictSet acc p.1 p.2) base

/-- The keys of a dict. -/
def keysOf (m : List (String × Value)) : List String := m.map Prod.fst

/-! ### The executor state -/

/-- The persistent state of `utils/executor.py`'s `Executor` that the claims
are about: `self._base_globals` (the functions injected into every
evaluation) and `self._variables` (the flat shared variable namespace).  The
action log and the event loop are irrelevant to the claims and omitted. -/
structure ExecutorState where
  baseGlobals : List (String × Value)
  vars : List (String × Value)

/-- `Executor.__init__`'s base globals: `{"run": self.run, "re": re}`. -/
def defaultBaseGlobals : List (String × Value) :=
  [("run", Value.method "run"), ("re", Value.module "re")]

/-- A freshly constructed executor. -/
def initExecutor : ExecutorState :=
  { baseGlobals := defaultBaseGlobals, vars := [] }

/-- `Executor.set_var`. -/
def setVar (ex : ExecutorState) (k : String) (v : Value) : ExecutorState :=
  { ex with vars := dictSet ex.vars k v }

/-- `Executor.get_var` (returns Python `None` when the key is absent). -/
def getVar (ex : ExecutorState) (k : String) : Value :=
  match lookupD ex.vars k with
  | some v => v
  | Option.none => Value.none

/-- `Executor._is_preserved_variable`: drops names starting with an
underscore, names of base globals, and non-data values. -/
def isPreservedVariable (baseKeys : List String) (key : String) (v : Value) : Bool :=
  if "_".toList.isPrefixOf key.toList || baseKeys.contains key then false
  else !v.isNonData

/-- `exec_globals = {**self._base_globals, **self._variables}` — the
namespace a block is executed against. -/
def execGlobals (ex : ExecutorState) : List (String × Value) :=
  dictMerge ex.baseGlobals ex.vars

/-! ### Outcome of `exec` and classification (`Executor._run_block`) -/

/-- The failure signature of a Python exception: either a `NameError`
carrying `str(e)`, or any other exception carrying its class name and
message. -/
inductive PyException where
  | nameError (msg : String)
  | other (kind : String) (msg : String)
deriving Repr, DecidableEq

/-- Outcome of `exec(block, exec_globals)`: clean completion with the final
contents of `exec_globals` and the captured stdout lines, or an exception
(with whatever output was captured before the failure). -/
inductive PyOutcome where
  | ok (finalGlobals : List (String × Value)) (out : List String)
  | raised (e : PyException) (out : List String)

/-- A code block to execute: its source text together with an oracle for
what CPython's `exec` does with it on a given namespace.  The engine itself
never interprets the text; it only searches it for the `name(` call pattern. -/
structure Block where
  text : String
  sem : List (String × Value) → PyOutcome

/-- The `(success, stdout_lines, error_msg)` triple `_run_block` returns. -/
structure ExecResult where
  success : Bool
  stdout : List String
  error : String
deriving Repr, DecidableEq

/-- The pattern `name '` opening the regex `r"name '(.+?)' is not defined"`. -/
def openPat : List Char := "name \x27".toList

/-- The closing literal `' is not defined` of the same regex. -/
def closePat : List Char := "\x27 is not defined".toList

/-- Lazy scan for `(.+?)` followed by `' is not defined`: consume at least
one non-newline character, checking for the closing literal at each
boundary (shortest match first, as the non-greedy `+?` does; `.` does not
match a newline since `re.DOTALL` is not passed). -/
def captureLazy : List Char → List Char → Option String
  | [], _ => Option.none
  | c :: rest, acc =>
    if c = '\n' then Option.none
    else if closePat.isPrefixOf rest then some (String.mk (acc ++ [c]))
    else captureLazy rest (acc ++ [c])

/-- `re.search(r"name '(.+?)' is not defined", msg)`: leftmost starting
position whose lazy completion succeeds; returns the captured group. -/
def searchUnbound : List Char → Option String
  | [] => Option.none
  | cs@(_ :: rest) =>
    (if openPat.isPrefixOf cs then captureLazy (cs.drop openPat.length) [] else Option.none).orElse
      (fun _ => searchUnbound rest)

/-- `sub in s` for strings (Python's substring containment). -/
def listContainsSub (sub : List Char) : List Char → Bool
  | [] => sub.isEmpty
  | cs@(_ :: rest) => sub.isPrefixOf cs || listContainsSub sub rest

/-- Python's `sub in s`. -/
def strContains (s sub : String) : Bool := listContainsSub sub.toList s.toList

/-- The distinguished stub marker
`f"NeedExpansion: \x60{name}\x60 needs to be expanded."`. -/
def needExpansionMarker (name : String) : String :=
  "NeedExpansion: \x60" ++ name ++ "\x60 needs to be expanded."

/-- The `try/except/finally` of `Executor._run_block`, given the outcome of
`exec`: on clean completion, copy every preserved binding of the final
`exec_globals` back into `self._variables` and return success; on a
`NameError` whose message matches `name '(.+?)' is not defined` where
`f"{name}(" in block`, return the stub marker; on any other `NameError`,
return `f"NameError: {e}"`; on any other exception, return
`f"{e.__class__.__name__}: {e}"`.  The variable store is written only on the
clean-completion path. -/
def copyPreserved (baseKeys : List String) (vars g : List (String × Value)) :
    List (String × Value) :=
  g.foldl
    (fun acc p => if isPreservedVariable baseKeys p.1 p.2 then dictSet acc p.1 p.2 else acc)
    vars

/-- The classification core of `Executor._run_block`, given the outcome of
`exec` (see the comment above `copyPreserved`, which is the
`for key, value in exec_globals.items(): …` copy-back loop). -/
def runBlockAux (ex : ExecutorState) (text : String) (outcome : PyOutcome) :
    ExecResult × ExecutorState :=
  match outcome with
  | .ok g out =>
    (⟨true, out, ""⟩, { ex with vars := copyPreserved (keysOf ex.baseGlobals) ex.vars g })
  | .raised (.nameError msg) out =>
    (match searchUnbound msg.toList with
     | some nm =>
       if strContains text (nm ++ "(") then ⟨false, out, needExpansionMarker nm⟩
       else ⟨false, out, "NameError: " ++ msg⟩
     | Option.none => ⟨false, out, "NameError: " ++ msg⟩,
     ex)
  | .raised (.other kind msg) out => (⟨false, out, kind ++ ": " ++ msg⟩, ex)

/-- `Executor._run_block`: execute the block against
`{**base_globals, **variables}` and classify the outcome. -/
def runBlock (ex : ExecutorState) (b : Block) : ExecResult × ExecutorState :=
  runBlockAux ex b.text (b.sem (execGlobals ex))

/-- Python's `str.strip()` (whitespace from both ends). -/
def pyStrip (s : String) : String :=
  String.mk ((s.toList.dropWhile Char.isWhitespace).reverse.dropWhile Char.isWhitespace).reverse

/-! ### The code tree (`CodeNode`, `NodeStatus`) and its traversal

A `CodeNode` tree is modelled by its shape (`Tree`) with nodes addressed by
paths — lists of child indices from the root, the root being `[]`.  Node
statuses are a separate assignment `Path → NodeStatus`, so the status
mutations of a run are plain function updates.  `CodeNode.depth` always
equals the length of the node's path: `__post_init__` sets
`depth = parent.depth + 1` with root depth 0.  `siblings.index(self)` in
`CodeNode.next` is the node's own position (node ids are fresh UUIDs, so a
node matches only itself), i.e. the last component of its path. -/

/-- `NodeStatus` from `agents/recode/utils.py`. -/
inductive NodeStatus where
  | pending
  | completed
  | stub
  | error
  | skip
deriving Repr, DecidableEq

/-- The shape of a `CodeNode` tree (children in list order). -/
inductive Tree where
  | node (children : List Tree)

/-- A node address: child indices from the root. -/
abbrev Path := List Nat

/-- The children of the root of a tree. -/
def Tree.children : Tree → List Tree
  | .node cs => cs

/-- The subtree rooted at a path, if the path is valid. -/
def subtreeAt (t : Tree) : Path → Option Tree
  | [] => some t
  | i :: p =>
    match t.children.get? i with
    | some c => subtreeAt c p
    | Option.none => Option.none

/-- Whether a path addresses a node of the tree. -/
def validPath (t : Tree) (p : Path) : Prop := (subtreeAt t p).isSome = true

instance (t : Tree) (p : Path) : Decidable (validPath t p) := by
  unfold validPath; infer_instance

/-- First index in the list whose child (under `base`) is `PENDING` —
the `for … if …: return` searches of `CodeNode.next`. -/
def findPendingIdx (st : Path → NodeStatus) (base : Path) : List Nat → Option Nat
  | [] => Option.none
  | i :: is => if st (base ++ [i]) = .pending then some i else findPendingIdx st base is

/-- Step 1 of `CodeNode.next`: first `PENDING` child of the node at `p`,
scanning `self.children` in order. -/
def childScan (t : Tree) (st : Path → NodeStatus) (p : Path) : Option Path :=
  match subtreeAt t p with
  | some c => (findPendingIdx st p (List.range c.children.length)).map (fun i => p ++ [i])
  | Option.none => Option.none

/-- Step 2 of `CodeNode.next`: first `PENDING` node among the parent `ps`'s
children at positions `range(k + 1, len(siblings))`, where `k` is the
node's own position. -/
def sibScan (t : Tree) (st : Path → NodeStatus) (ps : Path) (k : Nat) : Option Path :=
  match subtreeAt t ps with
  | some c =>
    (findPendingIdx st ps (List.range' (k + 1) (c.children.length - (k + 1)))).map
      (fun i => ps ++ [i])
  | Option.none => Option.none

/-- Steps 2–4 of `CodeNode.next`, operating on the reversed path (so the
climb to the parent is structural): for a node `ps ++ [k]`, try the forward
sibling scan, else recurse as `self.parent.next()` — which first scans all
of the parent's children (step 1 at the parent), then continues upward.
An empty (reversed) path is the root: `return None`. -/
def nextAux (t : Tree) (st : Path → NodeStatus) : List Nat → Option Path
  | [] => Option.none
  | k :: rps =>
    ((sibScan t st rps.reverse k).orElse (fun _ => childScan t st rps.reverse)).orElse
      (fun _ => nextAux t st rps)

/-- `CodeNode.next` for the node at path `p`: first `PENDING` child, else
the forward sibling scan, else recurse on the parent. -/
def nextPath (t : Tree) (st : Path → NodeStatus) (p : Path) : Option Path :=
  (childScan t st p).orElse (fun _ => nextAux t st p.reverse)

/-! ### Preorder bookkeeping for the traversal-completeness claim -/

mutual
/-- All node paths of a tree in depth-first preorder: a node first, then the
subtrees of its children in list order. -/
def preorder : Tree → List Path
  | .node cs => [] :: preorderChildren 0 cs

/-- Preorder paths contributed by children `cs` whose indices start at `i`. -/
def preorderChildren : Nat → List Tree → List Path
  | _, [] => []
  | i, c :: cs => (preorder c).map (fun q => i :: q) ++ preorderChildren (i + 1) cs
end

/-- The preorder successor of a node: the first node of its first child's
subtree if it has children, otherwise the next sibling of the deepest
ancestor-or-self that has one. -/
def preSuccT : Tree → Path → Option Path
  | t, [] => if t.children.length > 0 then some [0] else Option.none
  | t, i :: p =>
    match t.children.get? i with
    | Option.none => Option.none
    | some c =>
      match preSuccT c p with
      | some q => some (i :: q)
      | Option.none => if i + 1 < t.children.length then some [i + 1] else Option.none

/-- The preorder prefix of a tree up to and including the node at `p`:
the root, the full subtrees of the earlier siblings along the spine of `p`,
and recursively the prefix inside `p`'s own branch. -/
def prefixThrough : Tree → Path → List Path
  | _, [] => [[]]
  | t, i :: p =>
    match t.children.get? i with
    | Option.none => [[]]
    | some c =>
      [] :: (preorderChildren 0 (t.children.take i) ++ (prefixThrough c p).map (fun q => i :: q))

/-- The statuses during a pure-success run: every already-visited node has
been finished (COMPLETED / expanded STUB / SKIP — all non-`PENDING`, and
`CodeNode.next` only distinguishes `PENDING` from the rest, so `completed`
stands for any finished status), every other node is still `PENDING`. -/
def statusOfVisited (visited : List Path) : Path → NodeStatus :=
  fun q => if q ∈ visited then .completed else .pending

/-- The orchestrator's driving loop on a tree built purely by successful
expansions, starting at node `p` with history `visited`: finish the current
node, ask `CodeNode.next` for the next work item, repeat.  Returns the full
visit history.  (`fuel` bounds the number of steps; `runTraversal` supplies
enough for the whole tree.) -/
def runSteps (t : Tree) : Nat → Path → List Path → List Path
  | 0, p, visited => visited ++ [p]
  | fuel + 1, p, visited =>
    let visited' := visited ++ [p]
    match nextPath t (statusOfVisited visited') p with
    | some q => runSteps t fuel q visited'
    | Option.none => visited'

/-- A full run from the root over a fresh (all-`PENDING`) tree. -/
def runTraversal (t : Tree) : List Path :=
  runSteps t (preorder t).length [] []

/-! ### The expansion protocol (`ReCodeAgent._expand`) -/

/-- Outcome of extracting + splitting + validating one model reply, the two
failure classifications being `SyntaxError` and `ValueError` (the source
catches them together: `except (SyntaxError, ValueError)`). -/
inductive Validation where
  | valid (blocks : List String)
  | invalidSyntax
  | invalidConstruct
deriving Repr, DecidableEq

/-- The corrective instruction appended (verbatim, from
`agents/recode/agent.py`) to every prompt after a validation failure. -/
def retryHint : String :=
  "\n\n[Important] Your previous expansion produced syntactically invalid code and/or included disallowed constructs (e.g., def/async def). Strictly follow the rules: output a single valid Python code block, and do not use def or async def."

/-- The retry loop of `ReCodeAgent._expand`.  `remaining` is
`max_rewrite - attempt` (the source's counter starts at `attempt = 0`, and
after a failure checks `attempt + 1 >= max_rewrite`, i.e. `remaining <= 1`);
`oracle i` is the validation outcome of the model's `i`-th reply;
`hint` is the source's `retry_hint_added` flag.  Returns the result
(`some blocks` on success, `none` when the budget is exhausted) together
with the list of prompts actually sent to the model. -/
def expandGo (oracle : Nat → Validation) (base : String) :
    Nat → Nat → Bool → Option (List String) × List String
  | 0, i, hint =>
    (match oracle i with
     | .valid blocks => (some blocks, [if hint then base ++ retryHint else base])
     | _ => (Option.none, [if hint then base ++ retryHint else base]))
  | 1, i, hint =>
    (match oracle i with
     | .valid blocks => (some blocks, [if hint then base ++ retryHint else base])
     | _ => (Option.none, [if hint then base ++ retryHint else base]))
  | r + 2, i, hint =>
    (match oracle i with
     | .valid blocks => (some blocks, [if hint then base ++ retryHint else base])
     | _ =>
       ((expandGo oracle base (r + 1) (i + 1) true).1,
        (if hint then base ++ retryHint else base) ::
          (expandGo oracle base (r + 1) (i + 1) true).2))

/-- `ReCodeAgent._expand` with rewrite budget `maxRewrite`
(`self.max_rewrite`). -/
def expand (maxRewrite : Nat) (oracle : Nat → Validation) (base : String) :
    Option (List String) × List String :=
  expandGo oracle base maxRewrite 0 false

/-! ### The stub handler (`ReCodeAgent._handle_stub`) -/

/-- Append `n` fresh leaf children to the node at path `p`. -/
def attachAt : Tree → Path → Nat → Tree
  | t, [], n => .node (t.children ++ List.replicate n (.node []))
  | t, i :: p, n =>
    match t.children.get? i with
    | some c => .node (t.children.set i (attachAt c p n))
    | Option.none => t

/-- The agent state after one `_handle_stub` step: the (possibly grown)
tree, the updated statuses, the new current node, and the number of model
calls made during the step. -/
structure StubStepResult where
  tree : Tree
  st : Path → NodeStatus
  current : Option Path
  llmCalls : Nat

/-- `ReCodeAgent._handle_stub` for the stub node at path `p` (whose `depth`
field equals `p.length`): if `depth >= max_depth`, terminate the attempt
(`current_node = None`) without any model call; otherwise run `_expand`: on
`None` terminate the attempt, on an empty block list mark the node `SKIP`,
on a non-empty list attach the blocks as fresh `PENDING` children; in the
latter two cases advance via `CodeNode.next`. -/
def handleStub (maxDepth maxRewrite : Nat) (base : String) (oracle : Nat → Validation)
    (t : Tree) (st : Path → NodeStatus) (p : Path) : StubStepResult :=
  if p.length ≥ maxDepth then ⟨t, st, Option.none, 0⟩
  else
    let res := expandGo oracle base maxRewrite 0 false
    match res.1 with
    | Option.none => ⟨t, st, Option.none, res.2.length⟩
    | some [] =>
      let st' := fun q => if q = p then NodeStatus.skip else st q
      ⟨t, st', nextPath t st' p, res.2.length⟩
    | some blocks =>
      let t' := attachAt t p blocks.length
      let oldCount :=
        match subtreeAt t p with
        | some c => c.children.length
        | Option.none => 0
      let st' := fun q =>
        if (List.range blocks.length).any (fun j => q = p ++ [oldCount + j]) then
          NodeStatus.pending
        else st q
      ⟨t', st', nextPath t' st' p, res.2.length⟩

/-! ### `parse_xml_tag` (`utils/common.py`) -/

/-- Lazy scan for `(.*?)` followed by the closing tag, under `re.DOTALL`
(any character, shortest match first; the group may be empty). -/
def captureTag (close : List Char) : List Char → List Char → Option (List Char)
  | [], acc => if close.isPrefixOf ([] : List Char) then some acc else Option.none
  | cs@(c :: rest), acc =>
    if close.isPrefixOf cs then some acc else captureTag close rest (acc ++ [c])

/-- `re.search(rf"<{tag}>(.*?)</{tag}>", response, re.DOTALL)`: leftmost
opening tag whose closing tag occurs later; returns the captured group. -/
def searchTag (opn close : List Char) : List Char → Option (List Char)
  | [] => Option.none
  | cs@(_ :: rest) =>
    (if opn.isPrefixOf cs then captureTag close (cs.drop opn.length) [] else Option.none).orElse
      (fun _ => searchTag opn close rest)

/-- `parse_xml_tag(response, xml_tag)`: the stripped content of the first
`<tag>…</tag>` region, or the empty string when there is none. -/
def parseXmlTag (response tag : String) : String :=
  match searchTag ("<" ++ tag ++ ">").toList ("</" ++ tag ++ ">").toList response.toList with
  | some cs => pyStrip (String.mk cs)
  | Option.none => ""

/-! ### Python abstract syntax (as produced by `ast.parse`)

The repository never parses Python itself; it calls `ast.parse` /
`codeop.CommandCompiler` and walks the result.  The AST fragment below
covers the node kinds the engine's walks inspect.  `lam` is `ast.Lambda` —
note it is an *expression*, distinct from the statement nodes
`ast.FunctionDef` / `ast.AsyncFunctionDef` that the validation walks test
with `isinstance`. -/

inductive PyExpr where
  | name (id : String)
  | const (v : Value)
  | call (fn : PyExpr) (args : List PyExpr) (kwargs : List (Option String × PyExpr))
  | binOp (l r : PyExpr)
  | lam (body : PyExpr)
  | attr (obj : PyExpr) (field : String)
  | subscript (obj idx : PyExpr)
  | listDisplay (elts : List PyExpr)

inductive PyStmt where
  | assign (targets : List PyExpr) (value : PyExpr)
  | annAssign (target : PyExpr) (value : Option PyExpr)
  | exprStmt (value : PyExpr)
  | functionDef (fname : String) (body : List PyStmt)
  | asyncFunctionDef (fname : String) (body : List PyStmt)
  | forStmt (target iter : PyExpr) (body orelse : List PyStmt)
  | ifStmt (test : PyExpr) (body orelse : List PyStmt)
  | whileStmt (test : PyExpr) (body orelse : List PyStmt)
  | pass

mutual
/-- `any(isinstance(node, (ast.FunctionDef, ast.AsyncFunctionDef)) for node
in ast.walk(stmt))`: a named `def`/`async def` occurs somewhere inside the
statement.  `ast.Lambda` is *not* one of the tested classes. -/
def stmtContainsDef : PyStmt → Bool
  | .functionDef _ _ => true
  | .asyncFunctionDef _ _ => true
  | .forStmt _ _ body orelse => stmtsContainDef body || stmtsContainDef orelse
  | .ifStmt _ body orelse => stmtsContainDef body || stmtsContainDef orelse
  | .whileStmt _ body orelse => stmtsContainDef body || stmtsContainDef orelse
  | _ => false

/-- `stmtContainsDef` over a statement list. -/
def stmtsContainDef : List PyStmt → Bool
  | [] => false
  | s :: ss => stmtContainsDef s || stmtsContainDef ss
end

/-- Result of one `codeop.CommandCompiler` call: a code object
(`complete`), `None` (`incomplete` input), or a raised
`SyntaxError`/`ValueError`/`OverflowError` (`err`). -/
inductive CompileRes where
  | complete
  | incomplete
  | err
deriving Repr, DecidableEq

/-- The CPython front end, as an oracle: `parse` is `ast.parse`, returning
for each top-level statement its AST together with its source slice
`"".join(lines[node.lineno - 1 : node.end_lineno])` (or `none` for a
`SyntaxError`); `compileCheck` is `codeop.CommandCompiler()(text,
symbol="exec")`. -/
structure PyFrontend where
  parse : String → Option (List (PyStmt × String))
  compileCheck : String → CompileRes

/-- The two exception classes `split_blocks` / `validate_blocks` raise. -/
inductive PyErr where
  | syntaxErr (msg : String)
  | valueErr (msg : String)
deriving Repr, DecidableEq

/-- `str.splitlines(True)` (keepends), for `\n`-terminated lines. -/
def splitLinesAux : List Char → List Char → List String
  | [], acc => if acc.isEmpty then [] else [String.mk acc]
  | c :: rest, acc =>
    if c = '\n' then String.mk (acc ++ [c]) :: splitLinesAux rest []
    else splitLinesAux rest (acc ++ [c])

/-- `source.splitlines(True)`. -/
def splitLinesKeepEnds (s : String) : List String := splitLinesAux s.toList []

/-- `"".join(parts)`. -/
def joinAll (parts : List String) : String := parts.foldl (fun a b => a ++ b) ""

/-- One iteration of `split_blocks`' incremental-compilation fallback loop,
over the running `(blocks, buf)` state: append the line to the buffer; if
the buffer now raises, either flush a previously-complete buffer and retry
the line alone, or emit the offending line on its own keeping the old
buffer; if the buffer is complete, flush it; if incomplete, keep
accumulating. -/
def splitFallbackStep (fe : PyFrontend) (acc : List String × List String) (line : String) :
    List String × List String :=
  let blocks := acc.1
  let buf := acc.2
  let buf1 := buf ++ [line]
  match fe.compileCheck (joinAll buf1) with
  | .err =>
    let prevOk := !buf.isEmpty && fe.compileCheck (joinAll buf) == CompileRes.complete
    if prevOk then
      let blocks1 := blocks ++ [joinAll buf]
      match fe.compileCheck line with
      | .err => (blocks1 ++ [line], [])
      | _ => (blocks1, [line])
    else (blocks ++ [line], buf)
  | .incomplete => (blocks, buf1)
  | .complete => (blocks ++ [joinAll buf1], [])

/-- `split_blocks(source)` from `agents/recode/utils.py`: empty/whitespace
input yields `[]`; otherwise try `ast.parse` — on success reject any
`def`/`async def` (the `ValueError` escapes, only `SyntaxError` is caught)
and return the top-level statement slices; on `SyntaxError` fall back to the
incremental loop, flushing any trailing buffer. -/
def split_blocks (fe : PyFrontend) (source : String) : Except PyErr (List String) :=
  if pyStrip source = "" then .ok []
  else
    match fe.parse source with
    | some stmts =>
      if stmts.any (fun sp => stmtContainsDef sp.1) then
        .error (.valueErr "Function definitions (def/async def) are not allowed in expanded code")
      else .ok (stmts.map (fun sp => sp.2))
    | Option.none =>
      let folded := (splitLinesKeepEnds source).foldl (splitFallbackStep fe) ([], [])
      .ok (if folded.2.isEmpty then folded.1 else folded.1 ++ [joinAll folded.2])

/-- The per-block body of `validate_blocks(blocks)` from
`agents/recode/utils.py`:
a raising compile is `SyntaxError("Invalid Python block: …")`; a `None`
compile result is `SyntaxError("Incomplete Python block produced by
EXPAND.")`; a failing `ast.parse` is re-raised; a `def`/`async def`
anywhere in the statement's AST walk is a `ValueError`. -/
def validate_one (fe : PyFrontend) (b : String) : Except PyErr Unit :=
  match fe.compileCheck b with
  | .err => .error (.syntaxErr "Invalid Python block")
  | .incomplete => .error (.syntaxErr "Incomplete Python block produced by EXPAND.")
  | .complete =>
    match fe.parse b with
    | Option.none => .error (.syntaxErr "invalid syntax")
    | some stmts =>
      if stmts.any (fun sp => stmtContainsDef sp.1) then
        .error (.valueErr "Function definitions (def/async def) are not allowed in expanded code")
      else .ok ()

/-- The per-block loop of `validate_blocks` (the first failing block's
exception propagates). -/
def validate_blocks (fe : PyFrontend) : List String → Except PyErr Unit
  | [] => .ok ()
  | b :: rest =>
    match validate_one fe b with
    | .ok _ => validate_blocks fe rest
    | .error e => .error e

/-- One attempt of `_expand`'s reply processing: extract the `<execute>`
section (`parse_xml_tag` + `.strip()`), then `split_blocks` +
`validate_blocks`; the two exception classes are the two failure
classifications (caught together by `except (SyntaxError, ValueError)`). -/
def attemptValidation (fe : PyFrontend) (response : String) : Validation :=
  let expandedCode := pyStrip (parseXmlTag response "execute")
  match split_blocks fe expandedCode with
  | .error (.syntaxErr _) => .invalidSyntax
  | .error (.valueErr _) => .invalidConstruct
  | .ok blocks =>
    match validate_blocks fe blocks with
    | .ok _ => .valid blocks
    | .error (.syntaxErr _) => .invalidSyntax
    | .error (.valueErr _) => .invalidConstruct

/-! ### `get_variables` (`agents/recode/utils.py`) -/

mutual
/-- `ast.literal_eval`, for the literal shapes present in this AST model
(constants and list displays of literals); anything else raises, i.e.
returns `none`. -/
def tryLiteralEval : PyExpr → Option Value
  | .const v => some v
  | .listDisplay es => (tryLiteralEvalList es).map Value.list
  | _ => Option.none

/-- `ast.literal_eval` over the elements of a list display. -/
def tryLiteralEvalList : List PyExpr → Option (List Value)
  | [] => some []
  | e :: es =>
    match tryLiteralEval e with
    | some v => (tryLiteralEvalList es).map (fun vs => v :: vs)
    | Option.none => Option.none
end

/-- `try_literal_eval(kw.value)` combined with the source's
`if literal_value is not None:` guard (a literal `None` keyword value is
treated like a failed literal evaluation). -/
def literalNotNone (e : PyExpr) : Option Value :=
  match tryLiteralEval e with
  | some Value.none => Option.none
  | some v => some v
  | Option.none => Option.none

/-- Add a name to the discovered list unless already present (the source
keeps a list for order plus a set for membership). -/
def addIfNew (disc : List String) (n : String) : List String :=
  if n ∈ disc then disc else disc ++ [n]

/-- The body of the keyword loop in `collect_from_call`: skip `**kwargs`
entries; store and record literal keyword values via `executor.set_var`;
record bare-name keyword values by the *referenced variable's* name. -/
def processKw (acc : ExecutorState × List String) (kw : Option String × PyExpr) :
    ExecutorState × List String :=
  match kw.1 with
  | Option.none => acc
  | some kname =>
    match literalNotNone kw.2 with
    | some v => (setVar acc.1 kname v, addIfNew acc.2 kname)
    | Option.none =>
      match kw.2 with
      | .name vid => (acc.1, addIfNew acc.2 vid)
      | _ => acc

/-- `collect_from_call(call)`: for each positional argument, record it if it
is a bare name — and then (the keyword loop is nested inside the positional
loop in the source, so it runs once per positional argument and not at all
when there are none) process every keyword argument. -/
def collectFromCall (ex : ExecutorState) (disc : List String)
    (args : List PyExpr) (kwargs : List (Option String × PyExpr)) :
    ExecutorState × List String :=
  args.foldl
    (fun acc arg =>
      let acc1 :=
        match arg with
        | .name vid => (acc.1, addIfNew acc.2 vid)
        | _ => acc
      kwargs.foldl processKw acc1)
    (ex, disc)

/-- The call searched for by the statement loop of `get_variables`: the
first top-level statement that is an `Assign`/`AnnAssign`/`Expr` whose value
is a `Call` (the loop `break`s at the first such statement). -/
def stmtCallArgs : PyStmt → Option (List PyExpr × List (Option String × PyExpr))
  | .assign _ v =>
    match v with
    | .call _ a k => some (a, k)
    | _ => Option.none
  | .annAssign _ (some (.call _ a k)) => some (a, k)
  | .exprStmt (.call _ a k) => some (a, k)
  | _ => Option.none

/-- The statement loop of `get_variables` (`for stmt in tree.body: … break`). -/
def firstCallStmt (stmts : List PyStmt) :
    Option (List PyExpr × List (Option String × PyExpr)) :=
  stmts.findSome? stmtCallArgs

/-- A node of `ast.walk`'s worklist. -/
inductive WalkNode where
  | s (stmt : PyStmt)
  | e (ex : PyExpr)

/-- `ast.iter_child_nodes` for statements (field order as in CPython;
`ast.keyword` wrapper nodes are flattened to their value expressions —
they are never `Call` nodes themselves). -/
def stmtChildren : PyStmt → List WalkNode
  | .assign targets value => targets.map WalkNode.e ++ [WalkNode.e value]
  | .annAssign target value =>
    WalkNode.e target :: (match value with | some v => [WalkNode.e v] | Option.none => [])
  | .exprStmt v => [WalkNode.e v]
  | .functionDef _ body => body.map WalkNode.s
  | .asyncFunctionDef _ body => body.map WalkNode.s
  | .forStmt target iter body orelse =>
    WalkNode.e target :: WalkNode.e iter :: (body.map WalkNode.s ++ orelse.map WalkNode.s)
  | .ifStmt test body orelse =>
    WalkNode.e test :: (body.map WalkNode.s ++ orelse.map WalkNode.s)
  | .whileStmt test body orelse =>
    WalkNode.e test :: (body.map WalkNode.s ++ orelse.map WalkNode.s)
  | .pass => []

/-- `ast.iter_child_nodes` for expressions. -/
def exprChildren : PyExpr → List WalkNode
  | .name _ => []
  | .const _ => []
  | .call fn args kwargs =>
    WalkNode.e fn :: (args.map WalkNode.e ++ kwargs.map (fun kw => WalkNode.e kw.2))
  | .binOp l r => [WalkNode.e l, WalkNode.e r]
  | .lam body => [WalkNode.e body]
  | .attr o _ => [WalkNode.e o]
  | .subscript o i => [WalkNode.e o, WalkNode.e i]
  | .listDisplay es => es.map WalkNode.e

/-- Children of a worklist node. -/
def nodeChildren : WalkNode → List WalkNode
  | .s st => stmtChildren st
  | .e ex => exprChildren ex

mutual
/-- Node count of an expression (fuel for the breadth-first walk). -/
def exprSize : PyExpr → Nat
  | .name _ => 1
  | .const _ => 1
  | .call fn args kwargs => 1 + exprSize fn + exprListSize args + kwListSize kwargs
  | .binOp l r => 1 + exprSize l + exprSize r
  | .lam b => 1 + exprSize b
  | .attr o _ => 1 + exprSize o
  | .subscript o i => 1 + exprSize o + exprSize i
  | .listDisplay es => 1 + exprListSize es

/-- Node count of an expression list. -/
def exprListSize : List PyExpr → Nat
  | [] => 0
  | e :: es => exprSize e + exprListSize es

/-- Node count of a keyword list. -/
def kwListSize : List (Option String × PyExpr) → Nat
  | [] => 0
  | (_, e) :: ks => 1 + exprSize e + kwListSize ks
end

mutual
/-- Node count of a statement. -/
def stmtSize : PyStmt → Nat
  | .assign targets value => 1 + exprListSize targets + exprSize value
  | .annAssign target value =>
    1 + exprSize target + (match value with | some v => exprSize v | Option.none => 0)
  | .exprStmt v => 1 + exprSize v
  | .functionDef _ body => 1 + stmtListSize body
  | .asyncFunctionDef _ body => 1 + stmtListSize body
  | .forStmt target iter body orelse =>
    1 + exprSize target + exprSize iter + stmtListSize body + stmtListSize orelse
  | .ifStmt test body orelse => 1 + exprSize test + stmtListSize body + stmtListSize orelse
  | .whileStmt test body orelse => 1 + exprSize test + stmtListSize body + stmtListSize orelse
  | .pass => 1

/-- Node count of a statement list. -/
def stmtListSize : List PyStmt → Nat
  | [] => 0
  | s :: ss => stmtSize s + stmtListSize ss
end

/-- The fallback of `get_variables`: `for node in ast.walk(tree): if
isinstance(node, ast.Call): … break` — the first `Call` in breadth-first
(walk) order.  The fuel (total node count at the call site) covers the whole
walk, so exhaustion coincides with an empty worklist. -/
def firstCallBFS : Nat → List WalkNode → Option (List PyExpr × List (Option String × PyExpr))
  | 0, _ => Option.none
  | _, [] => Option.none
  | f + 1, n :: rest =>
    match n with
    | .e (.call _ a k) => some (a, k)
    | _ => firstCallBFS f (rest ++ nodeChildren n)

mutual
/-- Python `repr` for the modelled values (string escaping inside `repr` of
strings is not modelled). -/
def pyRepr : Value → String
  | .none => "None"
  | .bool b => if b then "True" else "False"
  | .int n => toString n
  | .str s => "\x27" ++ s ++ "\x27"
  | .list es => "[" ++ pyReprList es ++ "]"
  | .tuple [] => "()"
  | .tuple [e] => "(" ++ pyRepr e ++ ",)"
  | .tuple es => "(" ++ pyReprList es ++ ")"
  | .setV [] => "set()"
  | .setV es => "\x7b" ++ pyReprList es ++ "\x7d"
  | .dict items => "\x7b" ++ pyReprItems items ++ "\x7d"
  | .module n => "<module " ++ n ++ ">"
  | .function n => "<function " ++ n ++ ">"
  | .builtinFunction n => "<built-in function " ++ n ++ ">"
  | .method n => "<bound method " ++ n ++ ">"
  | .classV n => "<class " ++ n ++ ">"
  | .obj n => "<" ++ n ++ " object>"

/-- Comma-joined `repr`s of list elements. -/
def pyReprList : List Value → String
  | [] => ""
  | [v] => pyRepr v
  | v :: vs => pyRepr v ++ ", " ++ pyReprList vs

/-- Comma-joined `repr`s of dict items. -/
def pyReprItems : List (Value × Value) → String
  | [] => ""
  | [(k, v)] => pyRepr k ++ ": " ++ pyRepr v
  | (k, v) :: rest => pyRepr k ++ ": " ++ pyRepr v ++ ", " ++ pyReprItems rest
end

/-- Python `str` (as used by the f-string `f"- {key} ({value_type}):
{value}"`): raw text for strings, `repr`-style for everything else. -/
def pyStr : Value → String
  | .str s => s
  | v => pyRepr v

/-- `"\n".join(lines)`. -/
def joinNl : List String → String
  | [] => ""
  | [x] => x
  | x :: xs => x ++ "\n" ++ joinNl xs

/-- One rendered line `f"- {name} ({value_type}): {value}"`, with
`value_type = executor._infer_type_string(value)` (depth 0, max depth 2)
and `value = executor.get_var(name)` (Python `None` when unset). -/
def renderLine (ex : ExecutorState) (name : String) : String :=
  "- " ++ name ++ " (" ++ inferTypeString 2 0 (getVar ex name) ++ "): " ++ pyStr (getVar ex name)

/-- `get_variables(executor, code)` from `agents/recode/utils.py`: reject
empty code and unparsable code; collect variable names from the first
call-bearing top-level statement (falling back to the first `Call` of the
breadth-first walk when nothing was discovered); render each discovered
name with its current value and inferred type.  Returns the rendered text
together with the executor state (which the keyword-literal branch
mutates through `set_var`). -/
def get_variables (fe : PyFrontend) (ex : ExecutorState) (code : String) :
    Except String (String × ExecutorState) :=
  if code = "" then .error "No code provided to get_variables"
  else
    match fe.parse code with
    | Option.none => .error "Invalid code when getting variables"
    | some stmtsSl =>
      let stmts := stmtsSl.map (fun sp => sp.1)
      let step1 :=
        match firstCallStmt stmts with
        | some (a, k) => collectFromCall ex [] a k
        | Option.none => (ex, [])
      let step2 :=
        if step1.2.isEmpty then
          match firstCallBFS (stmtListSize stmts + 1) (stmts.map WalkNode.s) with
          | some (a, k) => collectFromCall step1.1 step1.2 a k
          | Option.none => step1
        else step1
      if step2.2.isEmpty then .ok ("", step2.1)
      else .ok (joinNl (step2.2.map (renderLine step2.1)), step2.1)

/-! ### Free variables (the specification's vocabulary for claim C9) -/

mutual
/-- All names referenced (loaded) inside an expression. -/
def exprNames : PyExpr → List String
  | .name id => [id]
  | .const _ => []
  | .call fn args kwargs => exprNames fn ++ exprListNames args ++ kwNames kwargs
  | .binOp l r => exprNames l ++ exprNames r
  | .lam b => exprNames b
  | .attr o _ => exprNames o
  | .subscript o i => exprNames o ++ exprNames i
  | .listDisplay es => exprListNames es

/-- `exprNames` over an expression list. -/
def exprListNames : List PyExpr → List String
  | [] => []
  | e :: es => exprNames e ++ exprListNames es

/-- `exprNames` over keyword values. -/
def kwNames : List (Option String × PyExpr) → List String
  | [] => []
  | (_, e) :: ks => exprNames e ++ kwNames ks
end

/-- The free (referenced) variables of a top-level statement: every name
loaded by its value/test expressions — assignment targets excluded. -/
def stmtFreeNames : PyStmt → List String
  | .assign _ v => exprNames v
  | .annAssign _ (some v) => exprNames v
  | .annAssign _ Option.none => []
  | .exprStmt v => exprNames v
  | _ => []

mutual
/-- An anonymous deferred function (`ast.Lambda`) occurs inside the
expression — the specification's "anonymous-deferred form" of a function
definition. -/
def exprContainsLambda : PyExpr → Bool
  | .lam _ => true
  | .name _ => false
  | .const _ => false
  | .call fn args kwargs =>
    exprContainsLambda fn || exprsContainLambda args || kwsContainLambda kwargs
  | .binOp l r => exprContainsLambda l || exprContainsLambda r
  | .attr o _ => exprContainsLambda o
  | .subscript o i => exprContainsLambda o || exprContainsLambda i
  | .listDisplay es => exprsContainLambda es

/-- `exprContainsLambda` over an expression list. -/
def exprsContainLambda : List PyExpr → Bool
  | [] => false
  | e :: es => exprContainsLambda e || exprsContainLambda es

/-- `exprContainsLambda` over keyword values. -/
def kwsContainLambda : List (Option String × PyExpr) → Bool
  | [] => false
  | (_, e) :: ks => exprContainsLambda e || kwsContainLambda ks
end

/-- A statement contains an anonymous function definition (in any of its
top-level expressions). -/
def stmtContainsLambda : PyStmt → Bool
  | .assign targets v => exprsContainLambda targets || exprContainsLambda v
  | .annAssign t (some v) => exprContainsLambda t || exprContainsLambda v
  | .annAssign t Option.none => exprContainsLambda t
  | .exprStmt v => exprContainsLambda v
  | _ => false

/-! ### Concrete instances used by counterexamples and witnesses -/

/-- A two-leaf tree: root with children `[0]` and `[1]`. -/
def exTree : Tree := .node [.node [], .node []]

/-- Statuses in which the earlier sibling `[0]` is still `PENDING` while
`[1]` (and the root) are finished. -/
def exStatus : Path → NodeStatus := fun p => if p = [0] then .pending else .completed

/-- The statement `f = lambda x: x` as CPython parses it: an `ast.Assign`
whose value is an `ast.Lambda`. -/
def lambdaStmt : PyStmt := .assign [.name "f"] (.lam (.name "x"))

/-- The source text of `lambdaStmt`. -/
def lambdaBlockText : String := "f = lambda x: x"

/-- A front end that parses/compiles exactly `f = lambda x: x` (which is a
complete statement for `codeop` and parses as `lambdaStmt`). -/
def feLambda : PyFrontend :=
  { parse := fun s => if s = lambdaBlockText then some [(lambdaStmt, lambdaBlockText)] else Option.none
    compileCheck := fun s => if s = lambdaBlockText then .complete else .err }

/-- A front end for the single complete statement `x = 1`. -/
def feAssign : PyFrontend :=
  { parse := fun s =>
      if s = "x = 1" then some [(.assign [.name "x"] (.const (.int 1)), "x = 1")] else Option.none
    compileCheck := fun s => if s = "x = 1" then .complete else .err }

/-- The fragment text `f(y, x + 1)`. -/
def c9code : String := "f(y, x + 1)"

/-- `f(y, x + 1)` as CPython parses it: an expression statement whose value
is a call with a bare-name argument `y` and a compound argument `x + 1`. -/
def c9stmt : PyStmt :=
  .exprStmt (.call (.name "f") [.name "y", .binOp (.name "x") (.const (.int 1))] [])

/-- A front end that parses exactly `f(y, x + 1)`. -/
def feC9 : PyFrontend :=
  { parse := fun s => if s = c9code then some [(c9stmt, c9code)] else Option.none
    compileCheck := fun _ => .complete }

/-- An executor whose namespace binds `x = 5` and `y = "a"`. -/
def exC9 : ExecutorState :=
  { baseGlobals := defaultBaseGlobals, vars := [("x", .int 5), ("y", .str "a")] }

/-! ## Helper lemmas -/

theorem data_append (s t : String) : (s ++ t).data = s.data ++ t.data := rfl

/-- A genuine `NameError: …` report is never the distinguished stub marker
(the two differ already in their second character). -/
theorem nameError_ne_marker (msg nm : String) :
    ("NameError: " ++ msg) ≠ needExpansionMarker nm := by
  intro h
  have h2 := congrArg (fun s => s.data[1]?) h
  simp only [needExpansionMarker, data_append] at h2
  rw [List.getElem?_append_left (by decide),
      @List.getElem?_append_left Char ("NeedExpansion: \x60".data ++ nm.data)
        ("\x60 needs to be expanded.".data) 1 (by simp [List.length_append]),
      List.getElem?_append_left (by decide)] at h2
  exact absurd h2 (by decide)

/-- `runBlockAux` on a `NameError`, written out (definitional). -/
theorem runBlockAux_raised_nameError (ex : ExecutorState) (text msg : String)
    (out : List String) :
    runBlockAux ex text (.raised (.nameError msg) out) =
      (match searchUnbound msg.toList with
       | some nm =>
         if strContains text (nm ++ "(") then ⟨false, out, needExpansionMarker nm⟩
         else ⟨false, out, "NameError: " ++ msg⟩
       | Option.none => ⟨false, out, "NameError: " ++ msg⟩,
       ex) := rfl

/-! ## C1 — stub classification in `Executor._run_block` -/

/-- C1: a failed evaluation is classified as Stub (success = false with the
distinguished `NeedExpansion` marker) exactly when the failure signature is
an unbound-identifier `NameError` whose extracted identifier is followed by
`(` somewhere in the source text; every raised outcome yields
success = false; a non-matching `NameError` and any other exception are
reported verbatim as `kind: message`.  Concretely, `undefined_name(x)`
failing with `NameError: name 'undefined_name' is not defined` (which is
what CPython raises when `undefined_name` is absent from the namespace)
yields the Stub marker, while the bare reference `undefined_name` with the
same failure yields the genuine `NameError: …` report. -/
theorem c1_stub_classification :
    (∀ (ex : ExecutorState) (text : String) (e : PyException) (out : List String),
       (runBlockAux ex text (.raised e out)).1.success = false) ∧
    (∀ (ex : ExecutorState) (text msg : String) (out : List String) (nm : String),
       searchUnbound msg.toList = some nm →
       ((runBlockAux ex text (.raised (.nameError msg) out)).1.error = needExpansionMarker nm ↔
         strContains text (nm ++ "(") = true)) ∧
    (∀ (ex : ExecutorState) (text msg : String) (out : List String),
       searchUnbound msg.toList = Option.none →
       (runBlockAux ex text (.raised (.nameError msg) out)).1.error = "NameError: " ++ msg) ∧
    (∀ (ex : ExecutorState) (text kind msg : String) (out : List String),
       (runBlockAux ex text (.raised (.other kind msg) out)).1.error = kind ++ ": " ++ msg) ∧
    (runBlockAux initExecutor "undefined_name(x)"
        (.raised (.nameError "name \x27undefined_name\x27 is not defined") [])).1 =
      ⟨false, [], needExpansionMarker "undefined_name"⟩ ∧
    (runBlockAux initExecutor "undefined_name"
        (.raised (.nameError "name \x27undefined_name\x27 is not defined") [])).1 =
      ⟨false, [], "NameError: name \x27undefined_name\x27 is not defined"⟩ := by
  refine ⟨?_, ?_, ?_, ?_, by decide, by decide⟩
  · intro ex text e out
    cases e with
    | nameError msg =>
      rw [runBlockAux_raised_nameError]
      cases searchUnbound msg.toList with
      | none => rfl
      | some nm =>
        simp only
        split <;> rfl
    | other kind msg => rfl
  · intro ex text msg out nm h
    rw [runBlockAux_raised_nameError, h]
    simp only
    by_cases hc : strContains text (nm ++ "(") = true
    · simp [hc]
    · simp only [Bool.not_eq_true] at hc
      simp [hc]
      exact nameError_ne_marker msg nm
  · intro ex text msg out h
    rw [runBlockAux_raised_nameError, h]
  · intro ex text kind msg out
    rfl

/-- Closed instance of `c1_stub_classification`'s conditional parts. -/
theorem c1_stub_classification_witness :
    searchUnbound "name \x27g\x27 is not defined".toList = some "g" ∧
    (runBlockAux initExecutor "z = g(3)"
        (.raised (.nameError "name \x27g\x27 is not defined") [])).1.error =
      needExpansionMarker "g" ∧
    searchUnbound "boom".toList = Option.none ∧
    (runBlockAux initExecutor "z = 3"
        (.raised (.nameError "boom") [])).1.error = "NameError: " ++ "boom" :=
  ⟨by decide,
   (c1_stub_classification.2.1 initExecutor "z = g(3)" "name \x27g\x27 is not defined" [] "g"
      (by decide)).mpr (by decide),
   by decide,
   c1_stub_classification.2.2.1 initExecutor "z = 3" "boom" [] (by decide)⟩

/-! ## C10 — evaluation failures leave the variable store untouched -/

/-- C10: for every evaluation whose `exec` raises (whether the failure is
then Stub-classified or reported as a genuine error), `_run_block` returns
success = false and the executor's persistent variable mapping is exactly
what it was before the evaluation — the copy-back into `self._variables`
happens only on the clean-completion path. -/
theorem c10_failure_atomicity (ex : ExecutorState) (b : Block) (e : PyException)
    (out : List String) (h : b.sem (execGlobals ex) = .raised e out) :
    (runBlock ex b).2 = ex ∧ (runBlock ex b).1.success = false := by
  have hrb : runBlock ex b = runBlockAux ex b.text (.raised e out) := by
    unfold runBlock; rw [h]
  rw [hrb]
  cases e with
  | nameError msg =>
    refine ⟨rfl, ?_⟩
    rw [runBlockAux_raised_nameError]
    cases searchUnbound msg.toList with
    | none => rfl
    | some nm =>
      simp only
      split <;> rfl
  | other kind msg => exact ⟨rfl, rfl⟩

/-- Closed instance of `c10_failure_atomicity`. -/
theorem c10_failure_atomicity_witness :
    (Block.mk "y = x + 1" (fun _ => .raised (.other "TypeError" "bad operand") ["line1"])).sem
        (execGlobals initExecutor) = .raised (.other "TypeError" "bad operand") ["line1"] ∧
    (runBlock initExecutor
        (Block.mk "y = x + 1" (fun _ => .raised (.other "TypeError" "bad operand") ["line1"]))).2 =
      initExecutor ∧
    (runBlock initExecutor
        (Block.mk "y = x + 1"
          (fun _ => .raised (.other "TypeError" "bad operand") ["line1"]))).1.success = false :=
  ⟨rfl,
   (c10_failure_atomicity initExecutor
      (Block.mk "y = x + 1" (fun _ => .raised (.other "TypeError" "bad operand") ["line1"]))
      (.other "TypeError" "bad operand") ["line1"] rfl).1,
   (c10_failure_atomicity initExecutor
      (Block.mk "y = x + 1" (fun _ => .raised (.other "TypeError" "bad operand") ["line1"]))
      (.other "TypeError" "bad operand") ["line1"] rfl).2⟩

/-! ## C7 — the depth guard -/

/-- C7: for every Stub node whose depth (= path length) is at or beyond the
configured maximum, `_handle_stub` sets the current node to none — halting
the attempt's traversal — with the tree and statuses unchanged and zero
model calls made. -/
theorem c7_depth_guard (maxDepth maxRewrite : Nat) (base : String)
    (oracle : Nat → Validation) (t : Tree) (st : Path → NodeStatus) (p : Path)
    (hstub : st p = .stub) (hd : p.length ≥ maxDepth) :
    handleStub maxDepth maxRewrite base oracle t st p = ⟨t, st, Option.none, 0⟩ := by
  unfold handleStub
  rw [if_pos hd]

/-- Closed instance of `c7_depth_guard`. -/
theorem c7_depth_guard_witness :
    ((fun _ => NodeStatus.stub) : Path → NodeStatus) [0, 0] = .stub ∧
    ([0, 0] : Path).length ≥ 2 ∧
    handleStub 2 5 "B" (fun _ => .invalidSyntax) exTree (fun _ => .stub) [0, 0] =
      ⟨exTree, (fun _ => .stub), Option.none, 0⟩ :=
  ⟨rfl, by decide,
   c7_depth_guard 2 5 "B" (fun _ => .invalidSyntax) exTree (fun _ => .stub) [0, 0] rfl
     (by decide)⟩

/-! ## C2 — forward-only sibling traversal -/

/-- C2 counterexample: with the earlier sibling `[0]` still `PENDING` and
the just-finished node `[1]` having no pending children or later siblings,
`CodeNode.next` climbs to the parent, whose child scan returns the earlier
sibling `[0]` — a sibling positioned *before* the finished node, so the
traversal is not forward-only on such trees. -/
theorem c2_counterexample :
    nextPath exTree exStatus [1] = some [0] ∧ exStatus [0] = .pending ∧ (0 : Nat) < 1 :=
  ⟨by decide, by decide, by decide⟩

/-- `findPendingIdx` only returns indices of `PENDING` children. -/
theorem findPendingIdx_pending (st : Path → NodeStatus) (base : Path) :
    ∀ (l : List Nat) (i : Nat), findPendingIdx st base l = some i → st (base ++ [i]) = .pending := by
  intro l
  induction l with
  | nil => intro i h; cases h
  | cons j js ih =>
    intro i h
    unfold findPendingIdx at h
    by_cases hj : st (base ++ [j]) = .pending
    · rw [if_pos hj] at h
      cases h
      exact hj
    · rw [if_neg hj] at h
      exact ih i h

/-- The child scan only returns `PENDING` nodes. -/
theorem childScan_pending (t : Tree) (st : Path → NodeStatus) (p q : Path)
    (h : childScan t st p = some q) : st q = .pending := by
  unfold childScan at h
  cases hs : subtreeAt t p with
  | none => rw [hs] at h; cases h
  | some c =>
    rw [hs] at h
    dsimp only at h
    cases hf : findPendingIdx st p (List.range c.children.length) with
    | none => rw [hf] at h; cases h
    | some i =>
      rw [hf] at h
      rw [← Option.some.inj h]
      exact findPendingIdx_pending st p _ i hf

/-- The forward sibling scan only returns `PENDING` nodes. -/
theorem sibScan_pending (t : Tree) (st : Path → NodeStatus) (ps : Path) (k : Nat) (q : Path)
    (h : sibScan t st ps k = some q) : st q = .pending := by
  unfold sibScan at h
  cases hs : subtreeAt t ps with
  | none => rw [hs] at h; cases h
  | some c =>
    rw [hs] at h
    dsimp only at h
    cases hf : findPendingIdx st ps (List.range' (k + 1) (c.children.length - (k + 1))) with
    | none => rw [hf] at h; cases h
    | some i =>
      rw [hf] at h
      rw [← Option.some.inj h]
      exact findPendingIdx_pending st ps _ i hf

/-- The upward climb of `CodeNode.next` only returns `PENDING` nodes. -/
theorem nextAux_pending (t : Tree) (st : Path → NodeStatus) :
    ∀ (rp : List Nat) (q : Path), nextAux t st rp = some q → st q = .pending := by
  intro rp
  induction rp with
  | nil => intro q h; cases h
  | cons k rps ih =>
    intro q h
    unfold nextAux at h
    cases hsib : sibScan t st rps.reverse k with
    | some q' =>
      rw [hsib] at h
      cases h
      exact sibScan_pending t st rps.reverse k q hsib
    | none =>
      rw [hsib] at h
      cases hch : childScan t st rps.reverse with
      | some q' =>
        rw [hch] at h
        cases h
        exact childScan_pending t st rps.reverse q hch
      | none =>
        rw [hch] at h
        exact ih q h

/-- `CodeNode.next` only ever returns a `PENDING` node. -/
theorem nextPath_pending (t : Tree) (st : Path → NodeStatus) (p q : Path)
    (h : nextPath t st p = some q) : st q = .pending := by
  unfold nextPath at h
  cases hch : childScan t st p with
  | some q' =>
    rw [hch] at h
    cases h
    exact childScan_pending t st p q hch
  | none =>
    rw [hch] at h
    exact nextAux_pending t st p.reverse q h

/-- C2 amended: `CodeNode.next` returns only `PENDING` nodes, and its direct
sibling scan looks only forward; hence under the invariant the orchestrator
maintains — every sibling *before* the just-finished node has already left
`PENDING` — the traversal never returns an earlier sibling of the finished
node.  (Without that invariant the claim is false: an earlier sibling that
is still `PENDING` is reachable through the parent's child scan, see
`c2_counterexample`.) -/
theorem c2_forward_only_amended (t : Tree) (st : Path → NodeStatus) (ps : Path) (k j : Nat)
    (hfin : st (ps ++ [k]) ≠ .pending)
    (hprev : ∀ j', j' < k → st (ps ++ [j']) ≠ .pending)
    (hnext : nextPath t st (ps ++ [k]) = some (ps ++ [j])) :
    k < j := by
  have hq := nextPath_pending t st _ _ hnext
  rcases lt_trichotomy j k with hlt | heq | hgt
  · exact absurd hq (hprev j hlt)
  · subst heq
    exact absurd hq hfin
  · exact hgt

/-! ## C5 — the bounded rewrite retry loop -/

/-- Unfolding the retry loop at an exhausted budget (definitional). -/
theorem expandGo_zero (oracle : Nat → Validation) (base : String) (i : Nat) (hint : Bool) :
    expandGo oracle base 0 i hint =
      (match oracle i with
       | .valid blocks => (some blocks, [if hint then base ++ retryHint else base])
       | _ => (Option.none, [if hint then base ++ retryHint else base])) := rfl

/-- Unfolding the retry loop at the last allowed attempt (definitional). -/
theorem expandGo_one (oracle : Nat → Validation) (base : String) (i : Nat) (hint : Bool) :
    expandGo oracle base 1 i hint =
      (match oracle i with
       | .valid blocks => (some blocks, [if hint then base ++ retryHint else base])
       | _ => (Option.none, [if hint then base ++ retryHint else base])) := rfl

/-- Unfolding the retry loop with at least two attempts left
(definitional). -/
theorem expandGo_two (oracle : Nat → Validation) (base : String) (r i : Nat) (hint : Bool) :
    expandGo oracle base (r + 2) i hint =
      (match oracle i with
       | .valid blocks => (some blocks, [if hint then base ++ retryHint else base])
       | _ =>
         ((expandGo oracle base (r + 1) (i + 1) true).1,
          (if hint then base ++ retryHint else base) ::
            (expandGo oracle base (r + 1) (i + 1) true).2)) := rfl

/-- All prompts issued by `expandGo` with the retry flag already set carry
the corrective instruction. -/
theorem expandGo_prompts_hint (oracle : Nat → Validation) (base : String) :
    ∀ (rem i : Nat), ∀ p ∈ (expandGo oracle base rem i true).2, p = base ++ retryHint := by
  intro rem
  induction rem using Nat.strong_induction_on with
  | _ rem ih =>
    intro i p hp
    rcases rem with _ | _ | r
    · rw [expandGo_zero] at hp
      cases ho : oracle i <;> rw [ho] at hp <;> simp_all
    · rw [expandGo_one] at hp
      cases ho : oracle i <;> rw [ho] at hp <;> simp_all
    · rw [expandGo_two] at hp
      cases ho : oracle i with
      | valid blocks => rw [ho] at hp; simp_all
      | invalidSyntax =>
        rw [ho] at hp
        simp only [List.mem_cons] at hp
        rcases hp with h | h
        · simp_all
        · exact ih (r + 1) (by omega) (i + 1) p h
      | invalidConstruct =>
        rw [ho] at hp
        simp only [List.mem_cons] at hp
        rcases hp with h | h
        · simp_all
        · exact ih (r + 1) (by omega) (i + 1) p h

/-- When every model reply fails validation, the loop returns `None` after
exactly `max(max_rewrite, 1)` attempts (one call is always made, even with a
zero budget). -/
theorem expandGo_allFail (oracle : Nat → Validation) (base : String)
    (hfail : ∀ i b, oracle i ≠ .valid b) :
    ∀ (rem i : Nat) (hint : Bool),
      (expandGo oracle base rem i hint).1 = Option.none ∧
      (expandGo oracle base rem i hint).2.length = max rem 1 := by
  intro rem
  induction rem using Nat.strong_induction_on with
  | _ rem ih =>
    intro i hint
    rcases rem with _ | _ | r
    · rw [expandGo_zero]
      cases ho : oracle i with
      | valid b => exact absurd ho (hfail i b)
      | invalidSyntax => exact ⟨rfl, rfl⟩
      | invalidConstruct => exact ⟨rfl, rfl⟩
    · rw [expandGo_one]
      cases ho : oracle i with
      | valid b => exact absurd ho (hfail i b)
      | invalidSyntax => exact ⟨rfl, rfl⟩
      | invalidConstruct => exact ⟨rfl, rfl⟩
    · rw [expandGo_two]
      cases ho : oracle i with
      | valid b => exact absurd ho (hfail i b)
      | invalidSyntax =>
        have h := ih (r + 1) (by omega) (i + 1) true
        refine ⟨h.1, ?_⟩
        simp only [List.length_cons, h.2]
        omega
      | invalidConstruct =>
        have h := ih (r + 1) (by omega) (i + 1) true
        refine ⟨h.1, ?_⟩
        simp only [List.length_cons, h.2]
        omega

/-- The first prompt of the loop never carries the hint when it starts with
the flag unset. -/
theorem expandGo_head (oracle : Nat → Validation) (base : String) (rem i : Nat) :
    (expandGo oracle base rem i false).2.head? = some base := by
  rcases rem with _ | _ | r
  · rw [expandGo_zero]
    cases oracle i <;> rfl
  · rw [expandGo_one]
    cases oracle i <;> rfl
  · rw [expandGo_two]
    cases oracle i <;> rfl

/-- Every prompt after the first carries the corrective instruction. -/
theorem expandGo_tail_hint (oracle : Nat → Validation) (base : String) (rem i : Nat) :
    ∀ p ∈ (expandGo oracle base rem i false).2.tail, p = base ++ retryHint := by
  intro p hp
  rcases rem with _ | _ | r
  · rw [expandGo_zero] at hp
    cases ho : oracle i <;> rw [ho] at hp <;> simp_all
  · rw [expandGo_one] at hp
    cases ho : oracle i <;> rw [ho] at hp <;> simp_all
  · rw [expandGo_two] at hp
    cases ho : oracle i with
    | valid b => rw [ho] at hp; simp_all
    | invalidSyntax =>
      rw [ho] at hp
      simp only [List.tail_cons] at hp
      exact expandGo_prompts_hint oracle base (r + 1) (i + 1) p hp
    | invalidConstruct =>
      rw [ho] at hp
      simp only [List.tail_cons] at hp
      exact expandGo_prompts_hint oracle base (r + 1) (i + 1) p hp

/-- C5 counterexample: with rewrite budget `max_rewrite = 2` and a model
whose output fails validation every time, `_expand` makes exactly two
attempts (LLM calls) — not three — before returning `None`: the counter
starts at 0 and the loop exits as soon as `attempt + 1 >= max_rewrite`. -/
theorem c5_counterexample :
    (expand 2 (fun _ => Validation.invalidConstruct) "PROMPT").1 = Option.none ∧
    (expand 2 (fun _ => Validation.invalidConstruct) "PROMPT").2.length = 2 ∧
    ¬ (expand 2 (fun _ => Validation.invalidConstruct) "PROMPT").2.length = 3 :=
  ⟨rfl, rfl, by decide⟩

/-- C5 amended: on validation failure the loop sets the retry flag, so the
first prompt is the bare base prompt and every subsequent prompt is the base
prompt with one fixed corrective instruction appended — an instruction that
names both violation categories (the same text regardless of which category
actually occurred).  With budget `max_rewrite = n` and every reply invalid,
exactly `max(n, 1)` attempts are made (so with budget 2, the second attempt
already carries the hint and no third attempt happens), the loop returns
`None`, and the stub handler then ends the attempt with the tree unchanged —
no children attached — and no current node. -/
theorem c5_bounded_rewrite_amended (maxRewrite : Nat) (oracle : Nat → Validation)
    (base : String) (hfail : ∀ i b, oracle i ≠ .valid b) :
    (expand maxRewrite oracle base).1 = Option.none ∧
    (expand maxRewrite oracle base).2.length = max maxRewrite 1 ∧
    (expand maxRewrite oracle base).2.head? = some base ∧
    (∀ p ∈ (expand maxRewrite oracle base).2.tail, p = base ++ retryHint) ∧
    strContains retryHint "syntactically invalid" = true ∧
    strContains retryHint "disallowed constructs" = true ∧
    (∀ (maxDepth : Nat) (t : Tree) (st : Path → NodeStatus) (p : Path),
       p.length < maxDepth →
       (handleStub maxDepth maxRewrite base oracle t st p).tree = t ∧
       (handleStub maxDepth maxRewrite base oracle t st p).current = Option.none) := by
  refine ⟨(expandGo_allFail oracle base hfail maxRewrite 0 false).1,
    (expandGo_allFail oracle base hfail maxRewrite 0 false).2,
    expandGo_head oracle base maxRewrite 0,
    expandGo_tail_hint oracle base maxRewrite 0,
    by decide, by decide, ?_⟩
  intro maxDepth t st p hlt
  unfold handleStub
  rw [if_neg (by omega)]
  dsimp only
  have h1 := (expandGo_allFail oracle base hfail maxRewrite 0 false).1
  rw [h1]
  exact ⟨rfl, rfl⟩

/-- Closed instance of `c5_bounded_rewrite_amended` at budget 2 with an
always-invalid model. -/
theorem c5_bounded_rewrite_amended_witness :
    (expand 2 (fun _ => Validation.invalidSyntax) "P").1 = Option.none ∧
    (expand 2 (fun _ => Validation.invalidSyntax) "P").2.length = max 2 1 ∧
    (expand 2 (fun _ => Validation.invalidSyntax) "P").2.head? = some "P" ∧
    (∀ p ∈ (expand 2 (fun _ => Validation.invalidSyntax) "P").2.tail, p = "P" ++ retryHint) ∧
    strContains retryHint "syntactically invalid" = true ∧
    strContains retryHint "disallowed constructs" = true ∧
    (∀ (maxDepth : Nat) (t : Tree) (st : Path → NodeStatus) (p : Path),
       p.length < maxDepth →
       (handleStub maxDepth 2 "P" (fun _ => Validation.invalidSyntax) t st p).tree = t ∧
       (handleStub maxDepth 2 "P" (fun _ => Validation.invalidSyntax) t st p).current =
         Option.none) :=
  c5_bounded_rewrite_amended 2 (fun _ => Validation.invalidSyntax) "P"
    (fun _ b h => Validation.noConfusion h)

/-! ## C4 — namespace propagation (dict lemmas first) -/

theorem lookupD_cons (k1 : String) (v1 : Value) (rest : List (String × Value)) (k : String) :
    lookupD ((k1, v1) :: rest) k = if k1 = k then some v1 else lookupD rest k := rfl

theorem lookupD_mapSet (k : String) (v : Value) :
    ∀ (m : List (String × Value)), m.any (fun p => p.1 = k) = true →
      lookupD (m.map (fun p => if p.1 = k then (k, v) else p)) k = some v := by
  intro m
  induction m with
  | nil => intro h; cases h
  | cons p rest ih =>
    obtain ⟨k1, v1⟩ := p
    intro h
    simp only [List.map_cons]
    by_cases hp : k1 = k
    · rw [if_pos (by simpa using hp), lookupD_cons, if_pos rfl]
    · have h' : rest.any (fun p => p.1 = k) = true := by
        simpa [List.any_cons, hp] using h
      rw [if_neg (by simpa using hp), lookupD_cons, if_neg hp]
      exact ih h'

theorem lookupD_append_missing (k : String) (v : Value) :
    ∀ (m : List (String × Value)), m.any (fun p => p.1 = k) = false →
      lookupD (m ++ [(k, v)]) k = some v := by
  intro m
  induction m with
  | nil => intro _; simp [lookupD_cons]
  | cons p rest ih =>
    obtain ⟨k1, v1⟩ := p
    intro h
    simp only [List.any_cons, Bool.or_eq_false_iff, decide_eq_false_iff_not] at h
    rw [List.cons_append, lookupD_cons, if_neg h.1]
    exact ih h.2

/-- After `m[k] = v`, looking up `k` yields `v`. -/
theorem lookupD_dictSet_self (m : List (String × Value)) (k : String) (v : Value) :
    lookupD (dictSet m k v) k = some v := by
  unfold dictSet
  by_cases h : m.any (fun p => p.1 = k) = true
  · rw [if_pos h]
    exact lookupD_mapSet k v m h
  · rw [if_neg h]
    exact lookupD_append_missing k v m (Bool.eq_false_iff.mpr h)

/-- `m[k] = v` does not affect other keys. -/
theorem lookupD_dictSet_ne (m : List (String × Value)) (k k' : String) (v : Value)
    (hne : k' ≠ k) : lookupD (dictSet m k v) k' = lookupD m k' := by
  unfold dictSet
  by_cases h : m.any (fun p => p.1 = k) = true
  · rw [if_pos h]
    clear h
    induction m with
    | nil => rfl
    | cons p rest ih =>
      obtain ⟨k1, v1⟩ := p
      simp only [List.map_cons]
      by_cases hp : k1 = k
      · rw [if_pos (by simpa using hp), lookupD_cons, lookupD_cons,
          if_neg (fun hh => hne hh.symm), if_neg (fun hh => hne (hh.symm.trans hp))]
        exact ih
      · rw [if_neg (by simpa using hp), lookupD_cons, lookupD_cons]
        by_cases hq : k1 = k'
        · rw [if_pos hq, if_pos hq]
        · rw [if_neg hq, if_neg hq]
          exact ih
  · rw [if_neg (by simpa using h)]
    clear h
    induction m with
    | nil =>
      simp only [List.nil_append, lookupD_cons]
      rw [if_neg (fun hh => hne hh.symm)]
    | cons p rest ih =>
      obtain ⟨k1, v1⟩ := p
      rw [List.cons_append, lookupD_cons, lookupD_cons]
      by_cases hq : k1 = k'
      · rw [if_pos hq, if_pos hq]
      · rw [if_neg hq, if_neg hq]
        exact ih

/-- Unfolding one step of the copy-back loop. -/
theorem copyPreserved_cons (baseKeys : List String) (vars : List (String × Value))
    (p : String × Value) (rest : List (String × Value)) :
    copyPreserved baseKeys vars (p :: rest) =
      copyPreserved baseKeys
        (if isPreservedVariable baseKeys p.1 p.2 then dictSet vars p.1 p.2 else vars) rest := rfl

/-- Keys absent from the final globals are untouched by the copy-back. -/
theorem copyPreserved_lookup_notin (baseKeys : List String) (k : String) :
    ∀ (g vars : List (String × Value)), k ∉ keysOf g →
      lookupD (copyPreserved baseKeys vars g) k = lookupD vars k := by
  intro g
  induction g with
  | nil => intro vars _; rfl
  | cons p rest ih =>
    intro vars hk
    simp only [keysOf, List.map_cons, List.mem_cons] at hk
    push_neg at hk
    rw [copyPreserved_cons]
    rw [ih _ (by simpa [keysOf] using hk.2)]
    by_cases hp : isPreservedVariable baseKeys p.1 p.2 = true
    · rw [if_pos hp]
      exact lookupD_dictSet_ne vars p.1 k p.2 hk.1
    · rw [if_neg hp]

/-- A preserved binding of the final globals survives the copy-back with its
value. -/
theorem copyPreserved_lookup (baseKeys : List String) :
    ∀ (g vars : List (String × Value)) (k : String) (v : Value),
      (keysOf g).Nodup → lookupD g k = some v → isPreservedVariable baseKeys k v = true →
      lookupD (copyPreserved baseKeys vars g) k = some v := by
  intro g
  induction g with
  | nil => intro vars k v _ h _; cases h
  | cons p rest ih =>
    intro vars k v hnd hl hp
    have hnd' : p.1 ∉ keysOf rest ∧ (keysOf rest).Nodup := by
      simpa [keysOf, List.nodup_cons] using hnd
    by_cases hk : p.1 = k
    · have hv : p.2 = v := by
        have := hl
        simp only [lookupD, hk, if_pos rfl] at this
        exact Option.some.inj this
      rw [copyPreserved_cons]
      rw [copyPreserved_lookup_notin baseKeys k rest _ (hk ▸ hnd'.1)]
      rw [hk, hv, if_pos hp]
      exact lookupD_dictSet_self vars k v
    · have hl' : lookupD rest k = some v := by
        simpa [lookupD, hk] using hl
      rw [copyPreserved_cons]
      exact ih _ k v hnd'.2 hl' hp

/-- Unfolding one step of the `{**base, **vars}` merge. -/
theorem dictMerge_cons (base : List (String × Value)) (p : String × Value)
    (rest : List (String × Value)) :
    dictMerge base (p :: rest) = dictMerge (dictSet base p.1 p.2) rest := rfl

/-- Keys absent from the overriding dict are resolved in the base dict. -/
theorem dictMerge_lookup_notin (k : String) :
    ∀ (vars base : List (String × Value)), k ∉ keysOf vars →
      lookupD (dictMerge base vars) k = lookupD base k := by
  intro vars
  induction vars with
  | nil => intro base _; rfl
  | cons p rest ih =>
    intro base hk
    simp only [keysOf, List.map_cons, List.mem_cons] at hk
    push_neg at hk
    rw [dictMerge_cons, ih _ (by simpa [keysOf] using hk.2)]
    exact lookupD_dictSet_ne base p.1 k p.2 hk.1

/-- A binding of the overriding dict wins in the merge. -/
theorem dictMerge_lookup :
    ∀ (vars base : List (String × Value)) (k : String) (v : Value),
      (keysOf vars).Nodup → lookupD vars k = some v →
      lookupD (dictMerge base vars) k = some v := by
  intro vars
  induction vars with
  | nil => intro base k v _ h; cases h
  | cons p rest ih =>
    intro base k v hnd hl
    have hnd' : p.1 ∉ keysOf rest ∧ (keysOf rest).Nodup := by
      simpa [keysOf, List.nodup_cons] using hnd
    by_cases hk : p.1 = k
    · have hv : p.2 = v := by
        have := hl
        simp only [lookupD, hk, if_pos rfl] at this
        exact Option.some.inj this
      rw [dictMerge_cons, dictMerge_lookup_notin k rest _ (hk ▸ hnd'.1), hk, hv]
      exact lookupD_dictSet_self base k v
    · have hl' : lookupD rest k = some v := by
        simpa [lookupD, hk] using hl
      rw [dictMerge_cons]
      exact ih _ k v hnd'.2 hl'

/-- `m[k] = v` leaves the key list unchanged when the key is present, and
appends the key otherwise; either way key-nodupness is preserved. -/
theorem keysOf_dictSet_nodup (m : List (String × Value)) (k : String) (v : Value)
    (h : (keysOf m).Nodup) : (keysOf (dictSet m k v)).Nodup := by
  unfold dictSet
  by_cases ha : m.any (fun p => p.1 = k) = true
  · rw [if_pos ha]
    have : keysOf (m.map fun p => if p.1 = k then (k, v) else p) = keysOf m := by
      unfold keysOf
      rw [List.map_map]
      apply List.map_congr_left
      intro p _
      by_cases hp : p.1 = k
      · simp [hp]
      · simp [hp]
    rw [this]
    exact h
  · rw [if_neg (by simpa using ha)]
    unfold keysOf
    rw [List.map_append]
    refine List.Nodup.append h (List.nodup_singleton k) ?_
    intro x hx hx'
    simp only [List.map_cons, List.map_nil, List.mem_singleton] at hx'
    subst hx'
    simp only [List.any_eq_true, not_exists, not_and] at ha
    push_neg at ha
    simp only [keysOf, List.mem_map] at hx
    obtain ⟨p, hp, hpk⟩ := hx
    exact absurd (by simpa [hpk] using rfl : decide (p.1 = x) = true) (by
      have := ha p hp
      simpa [hpk] using this)

/-- The copy-back preserves key-nodupness of the variable store. -/
theorem keysOf_copyPreserved_nodup (baseKeys : List String) :
    ∀ (g vars : List (String × Value)), (keysOf vars).Nodup →
      (keysOf (copyPreserved baseKeys vars g)).Nodup := by
  intro g
  induction g with
  | nil => intro vars h; exact h
  | cons p rest ih =>
    intro vars h
    rw [copyPreserved_cons]
    by_cases hp : isPreservedVariable baseKeys p.1 p.2 = true
    · rw [if_pos hp]
      exact ih _ (keysOf_dictSet_nodup vars p.1 p.2 h)
    · rw [if_neg hp]
      exact ih _ h

/-- C4 counterexample: the claim quantifies over *every* variable bound by a
fragment, but `_is_preserved_variable` filters the copy-back: a fragment
that successfully binds `_x = 1` (so `_x` is in its final globals) leaves no
trace in the store, and `_x` is absent from the namespace the next fragment
is evaluated against. -/
theorem c4_counterexample :
    (runBlock initExecutor
        (Block.mk "_x = 1" (fun g => .ok (dictSet g "_x" (.int 1)) []))).1.success = true ∧
    lookupD (dictSet (execGlobals initExecutor) "_x" (.int 1)) "_x" = some (.int 1) ∧
    lookupD (execGlobals
        (runBlock initExecutor
          (Block.mk "_x = 1" (fun g => .ok (dictSet g "_x" (.int 1)) []))).2) "_x" =
      Option.none :=
  ⟨rfl, rfl, rfl⟩

/-- C4 amended: for every fragment that completes cleanly, every *preserved*
binding of its final globals (name not underscore-prefixed, not a base
global, value not a module/function/method/class) is copied back into the
flat shared store with its final (last-assigned) value, and is therefore
present in `{**base_globals, **variables}` — the namespace against which the
next fragment, wherever it sits in the tree, is evaluated (`runBlock`
evaluates `b.sem (execGlobals ex)`). -/
theorem c4_namespace_propagation_amended (ex : ExecutorState) (b : Block)
    (g : List (String × Value)) (out : List String) (k : String) (v : Value)
    (hnd : (keysOf ex.vars).Nodup)
    (hg : (keysOf g).Nodup)
    (hsem : b.sem (execGlobals ex) = .ok g out)
    (hpres : isPreservedVariable (keysOf ex.baseGlobals) k v = true)
    (hlook : lookupD g k = some v) :
    (runBlock ex b).1.success = true ∧
    lookupD (execGlobals (runBlock ex b).2) k = some v := by
  have hrb : runBlock ex b = runBlockAux ex b.text (.ok g out) := by
    unfold runBlock; rw [hsem]
  rw [hrb]
  refine ⟨rfl, ?_⟩
  show lookupD
      (execGlobals { ex with vars := copyPreserved (keysOf ex.baseGlobals) ex.vars g }) k =
    some v
  unfold execGlobals
  exact dictMerge_lookup _ ex.baseGlobals k v
    (keysOf_copyPreserved_nodup (keysOf ex.baseGlobals) g ex.vars hnd)
    (copyPreserved_lookup (keysOf ex.baseGlobals) g ex.vars k v hg hlook hpres)

/-- Closed instance of `c4_namespace_propagation_amended`: `a = 2` bound by
one fragment is visible, with value 2, in the namespace of the next. -/
theorem c4_namespace_propagation_amended_witness :
    (runBlock initExecutor
        (Block.mk "a = 2" (fun g => .ok (dictSet g "a" (.int 2)) []))).1.success = true ∧
    lookupD (execGlobals
        (runBlock initExecutor
          (Block.mk "a = 2" (fun g => .ok (dictSet g "a" (.int 2)) []))).2) "a" =
      some (.int 2) :=
  c4_namespace_propagation_amended initExecutor
    (Block.mk "a = 2" (fun g => .ok (dictSet g "a" (.int 2)) []))
    (dictSet (execGlobals initExecutor) "a" (.int 2)) [] "a" (.int 2)
    (by simp [initExecutor, keysOf]) (by decide) rfl (by decide) rfl

/-- Closed instance of `c2_forward_only_amended`: after `[0]` finishes in a
two-leaf tree whose second leaf is still pending, `next` returns `[1]`,
a strictly later sibling. -/
theorem c2_forward_only_amended_witness :
    ((fun p => if p = [1] then NodeStatus.pending else .completed) : Path → NodeStatus)
        ([] ++ [0]) ≠ .pending ∧
    nextPath exTree (fun p => if p = [1] then NodeStatus.pending else .completed) ([] ++ [0]) =
      some ([] ++ [1]) ∧
    0 < 1 :=
  ⟨by decide, by decide,
   c2_forward_only_amended exTree (fun p => if p = [1] then NodeStatus.pending else .completed)
     [] 0 1 (by decide) (fun j' hj => absurd hj (by omega)) (by decide)⟩

/-! ## C3 — what `validate_blocks` rejects -/

/-- Unfolding the block loop at a cons cell (definitional). -/
theorem validate_blocks_cons (fe : PyFrontend) (b : String) (rest : List String) :
    validate_blocks fe (b :: rest) =
      (match validate_one fe b with
       | .ok _ => validate_blocks fe rest
       | .error e => .error e) := rfl

/-- A block that `validate_one` accepts compiles as complete and parses with
no named function definition anywhere in its AST walk. -/
theorem validate_one_ok (fe : PyFrontend) (b : String) (h : validate_one fe b = .ok ()) :
    fe.compileCheck b = .complete ∧
    ∃ stmts, fe.parse b = some stmts ∧
      stmts.any (fun sp => stmtContainsDef sp.1) = false := by
  unfold validate_one at h
  cases hc : fe.compileCheck b with
  | err => rw [hc] at h; cases h
  | incomplete => rw [hc] at h; cases h
  | complete =>
    rw [hc] at h
    dsimp only at h
    refine ⟨rfl, ?_⟩
    cases hp : fe.parse b with
    | none => rw [hp] at h; cases h
    | some stmts =>
      rw [hp] at h
      dsimp only at h
      refine ⟨stmts, rfl, ?_⟩
      by_cases hd : stmts.any (fun sp => stmtContainsDef sp.1) = true
      · rw [if_pos hd] at h
        cases h
      · simpa using hd

/-- C3 counterexample: the statement `f = lambda x: x` contains an
anonymous-deferred function definition (an `ast.Lambda`), yet
`validate_blocks` accepts it — the walk only tests `isinstance(node,
(ast.FunctionDef, ast.AsyncFunctionDef))`, which a lambda is not. -/
theorem c3_counterexample :
    stmtContainsLambda lambdaStmt = true ∧
    validate_blocks feLambda [lambdaBlockText] = .ok () :=
  ⟨rfl, rfl⟩

/-- C3 amended: `validate_blocks` rejects every input containing a block
that does not compile as a syntactically complete statement (raising or
`None`-returning `codeop` result, or unparsable by `ast.parse`), and every
input containing a *named* function definition (`def` / `async def`)
anywhere in a block's AST — but not anonymous lambdas.  Stated in
contrapositive form: if validation succeeds, every block compiles complete
and parses with no named definition in its walk. -/
theorem c3_validate_amended (fe : PyFrontend) :
    ∀ (blocks : List String), validate_blocks fe blocks = .ok () →
      ∀ b ∈ blocks, fe.compileCheck b = .complete ∧
        ∃ stmts, fe.parse b = some stmts ∧
          stmts.any (fun sp => stmtContainsDef sp.1) = false := by
  intro blocks
  induction blocks with
  | nil =>
    intro _ b hb
    cases hb
  | cons c rest ih =>
    intro h b hb
    rw [validate_blocks_cons] at h
    cases hv : validate_one fe c with
    | error e => rw [hv] at h; cases h
    | ok u =>
      rw [hv] at h
      rcases List.mem_cons.mp hb with hbc | hbr
      · subst hbc
        exact validate_one_ok fe b (by cases u; exact hv)
      · exact ih h b hbr

/-- Closed instance of `c3_validate_amended`: validating the single
complete, definition-free block `x = 1` succeeds, so that block compiles
complete and parses clean. -/
theorem c3_validate_amended_witness :
    feAssign.compileCheck "x = 1" = .complete ∧
    (∃ stmts, feAssign.parse "x = 1" = some stmts ∧
      stmts.any (fun sp => stmtContainsDef sp.1) = false) :=
  c3_validate_amended feAssign ["x = 1"] rfl "x = 1" (List.mem_singleton.mpr rfl)

/-! ## C8 — empty expansion is a valid no-op -/

/-- When the first model reply validates to some blocks, the loop returns
them after a single call with the bare base prompt. -/
theorem expandGo_valid_first (oracle : Nat → Validation) (base : String)
    (maxRewrite : Nat) (blocks : List String) (h : oracle 0 = .valid blocks) :
    expandGo oracle base maxRewrite 0 false = (some blocks, [base]) := by
  rcases maxRewrite with _ | _ | r
  · rw [expandGo_zero, h]
    rfl
  · rw [expandGo_one, h]
    rfl
  · rw [expandGo_two, h]
    rfl

/-- C8: a reply with no `<execute>` section extracts to the empty string;
splitting blank text yields the empty statement list without raising;
validating the empty list succeeds; hence the whole reply pipeline returns
the *valid empty sequence* (distinct from the `None` failure); and on such
a result `_handle_stub` (below the depth bound) leaves the tree unchanged,
marks the node `SKIP`, makes exactly one model call, and continues the
traversal with `CodeNode.next`. -/
theorem c8_empty_expansion :
    parseXmlTag "<think>nothing to do</think>" "execute" = "" ∧
    (∀ (fe : PyFrontend) (s : String), pyStrip s = "" → split_blocks fe s = .ok []) ∧
    (∀ fe : PyFrontend, validate_blocks fe [] = .ok ()) ∧
    (∀ (fe : PyFrontend) (response : String), pyStrip (parseXmlTag response "execute") = "" →
       attemptValidation fe response = .valid []) ∧
    (∀ (maxDepth maxRewrite : Nat) (base : String) (oracle : Nat → Validation)
       (t : Tree) (st : Path → NodeStatus) (p : Path),
       p.length < maxDepth → oracle 0 = .valid [] →
       (handleStub maxDepth maxRewrite base oracle t st p).tree = t ∧
       (handleStub maxDepth maxRewrite base oracle t st p).st p = .skip ∧
       (handleStub maxDepth maxRewrite base oracle t st p).current =
         nextPath t (handleStub maxDepth maxRewrite base oracle t st p).st p ∧
       (handleStub maxDepth maxRewrite base oracle t st p).llmCalls = 1) := by
  refine ⟨by decide, ?_, fun _ => rfl, ?_, ?_⟩
  · intro fe s hs
    unfold split_blocks
    rw [if_pos hs]
  · intro fe response h
    unfold attemptValidation
    dsimp only
    rw [h]
    rfl
  · intro maxDepth maxRewrite base oracle t st p hd ho
    unfold handleStub
    rw [if_neg (by omega)]
    dsimp only
    rw [expandGo_valid_first oracle base maxRewrite [] ho]
    refine ⟨rfl, by simp, rfl, rfl⟩

/-- Closed instance of `c8_empty_expansion`'s conditional parts. -/
theorem c8_empty_expansion_witness :
    split_blocks feLambda "" = .ok [] ∧
    attemptValidation feLambda "<think>nothing to do</think>" = .valid [] ∧
    (handleStub 1 5 "B" (fun _ => Validation.valid []) (Tree.node []) (fun _ => .stub) []).st []
      = .skip ∧
    (handleStub 1 5 "B" (fun _ => Validation.valid []) (Tree.node []) (fun _ => .stub)
      []).llmCalls = 1 :=
  ⟨c8_empty_expansion.2.1 feLambda "" rfl,
   c8_empty_expansion.2.2.2.1 feLambda "<think>nothing to do</think>" (by decide),
   (c8_empty_expansion.2.2.2.2 1 5 "B" (fun _ => Validation.valid []) (Tree.node [])
      (fun _ => .stub) [] (by decide) rfl).2.1,
   (c8_empty_expansion.2.2.2.2 1 5 "B" (fun _ => Validation.valid []) (Tree.node [])
      (fun _ => .stub) [] (by decide) rfl).2.2.2⟩

/-! ## C9 — the expansion prompt's variable rendering -/

theorem mem_addIfNew_self (disc : List String) (n : String) : n ∈ addIfNew disc n := by
  unfold addIfNew
  by_cases h : n ∈ disc
  · rwa [if_pos h]
  · rw [if_neg h]
    simp

theorem mem_addIfNew_of_mem (disc : List String) (n x : String) (h : x ∈ disc) :
    x ∈ addIfNew disc n := by
  unfold addIfNew
  by_cases hn : n ∈ disc
  · rwa [if_pos hn]
  · rw [if_neg hn]
    simp [h]

theorem mem_processKw (acc : ExecutorState × List String) (kw : Option String × PyExpr)
    (x : String) (h : x ∈ acc.2) : x ∈ (processKw acc kw).2 := by
  unfold processKw
  rcases kw with ⟨onm, e⟩
  cases onm with
  | none => exact h
  | some kname =>
    cases literalNotNone e with
    | some v => exact mem_addIfNew_of_mem _ _ _ h
    | none =>
      cases e <;> first
        | exact h
        | exact mem_addIfNew_of_mem _ _ _ h

theorem mem_foldKw (kwargs : List (Option String × PyExpr)) :
    ∀ (acc : ExecutorState × List String) (x : String), x ∈ acc.2 →
      x ∈ (kwargs.foldl processKw acc).2 := by
  induction kwargs with
  | nil => intro acc x h; exact h
  | cons kw rest ih =>
    intro acc x h
    exact ih (processKw acc kw) x (mem_processKw acc kw x h)

/-- One positional-argument step of `collect_from_call`. -/
def collectArgStep (kwargs : List (Option String × PyExpr))
    (acc : ExecutorState × List String) (arg : PyExpr) : ExecutorState × List String :=
  kwargs.foldl processKw
    (match arg with
     | .name vid => (acc.1, addIfNew acc.2 vid)
     | _ => acc)

theorem collectFromCall_eq_foldl (ex : ExecutorState) (disc : List String)
    (args : List PyExpr) (kwargs : List (Option String × PyExpr)) :
    collectFromCall ex disc args kwargs = args.foldl (collectArgStep kwargs) (ex, disc) := rfl

theorem mem_collectArgStep (kwargs : List (Option String × PyExpr))
    (acc : ExecutorState × List String) (arg : PyExpr) (x : String) (h : x ∈ acc.2) :
    x ∈ (collectArgStep kwargs acc arg).2 := by
  unfold collectArgStep
  refine mem_foldKw kwargs _ x ?_
  cases arg <;> first
    | exact h
    | exact mem_addIfNew_of_mem _ _ _ h

theorem mem_foldArgs (kwargs : List (Option String × PyExpr)) (args : List PyExpr) :
    ∀ (acc : ExecutorState × List String) (x : String), x ∈ acc.2 →
      x ∈ (args.foldl (collectArgStep kwargs) acc).2 := by
  induction args with
  | nil => intro acc x h; exact h
  | cons a rest ih =>
    intro acc x h
    exact ih _ x (mem_collectArgStep kwargs acc a x h)

/-- Every bare-name positional argument ends up among the discovered
variable names. -/
theorem mem_collectFromCall (ex : ExecutorState) (disc : List String)
    (args : List PyExpr) (kwargs : List (Option String × PyExpr)) (name : String)
    (h : PyExpr.name name ∈ args) : name ∈ (collectFromCall ex disc args kwargs).2 := by
  rw [collectFromCall_eq_foldl]
  induction args generalizing ex disc with
  | nil => cases h
  | cons a rest ih =>
    rcases List.mem_cons.mp h with h1 | h2
    · rw [List.foldl_cons]
      refine mem_foldArgs kwargs rest _ name ?_
      rw [← h1]
      unfold collectArgStep
      refine mem_foldKw kwargs _ name ?_
      exact mem_addIfNew_self _ _
    · rw [List.foldl_cons]
      rcases hstep : collectArgStep kwargs (ex, disc) a with ⟨ex', disc'⟩
      exact hstep ▸ ih ex' disc' h2

/-! Substring machinery for the coverage statement. -/

theorem isPrefixOf_append_self (l r : List Char) : l.isPrefixOf (l ++ r) = true := by
  induction l with
  | nil => cases r <;> rfl
  | cons c cs ih => simpa [List.isPrefixOf] using ih

theorem listContainsSub_of_prefix (sub l : List Char) (h : sub.isPrefixOf l = true) :
    listContainsSub sub l = true := by
  cases l with
  | nil =>
    cases sub with
    | nil => rfl
    | cons c cs => cases h
  | cons c cs => simp [listContainsSub, h]

theorem listContainsSub_cons (sub l : List Char) (c : Char)
    (h : listContainsSub sub l = true) : listContainsSub sub (c :: l) = true := by
  simp [listContainsSub, h]

theorem listContainsSub_append (sub post : List Char) :
    ∀ pre, listContainsSub sub (pre ++ (sub ++ post)) = true := by
  intro pre
  induction pre with
  | nil => exact listContainsSub_of_prefix _ _ (isPrefixOf_append_self sub post)
  | cons c cs ih => exact listContainsSub_cons _ _ _ ih

theorem joinNl_mem_decomp (x : String) :
    ∀ (lines : List String), x ∈ lines →
      ∃ pre post, (joinNl lines).toList = pre ++ (x.toList ++ post) := by
  intro lines
  induction lines with
  | nil => intro h; cases h
  | cons y ys ih =>
    intro h
    cases ys with
    | nil =>
      have hx : x = y := by simpa using h
      exact ⟨[], [], by simp [joinNl, hx]⟩
    | cons z zs =>
      rcases List.mem_cons.mp h with h1 | h2
      · refine ⟨[], ('\n' :: (joinNl (z :: zs)).toList), ?_⟩
        show (y ++ "\n" ++ joinNl (z :: zs)).toList = _
        rw [← h1]
        show (x.data ++ "\n".data) ++ (joinNl (z :: zs)).data = _
        simp
      · obtain ⟨pre, post, hdec⟩ := ih h2
        refine ⟨y.toList ++ '\n' :: pre, post, ?_⟩
        show (y.data ++ "\n".data) ++ (joinNl (z :: zs)).data = _
        rw [show (joinNl (z :: zs)).data = (joinNl (z :: zs)).toList from rfl, hdec]
        simp

/-- A line of the rendered output is a substring of the whole output. -/
theorem strContains_joinNl (lines : List String) (x : String) (h : x ∈ lines) :
    strContains (joinNl lines) x = true := by
  obtain ⟨pre, post, hdec⟩ := joinNl_mem_decomp x lines h
  unfold strContains
  rw [hdec]
  exact listContainsSub_append x.toList post pre

/-- C9 counterexample: the code `f(y, x + 1)` references the free variable
`x` (inside the compound argument `x + 1`), `x` has a current value in the
executor, yet the rendering covers only the bare-name argument `y`: the
output is exactly `- y (str): a` and contains no line for `x`. -/
theorem c9_counterexample :
    "x" ∈ stmtFreeNames c9stmt ∧
    get_variables feC9 exC9 c9code = .ok ("- y (str): a", exC9) ∧
    strContains "- y (str): a" ("- x (") = false :=
  ⟨by decide, rfl, by decide⟩

/-- C9 amended: the rendering covers every variable that appears as a
*bare-name positional argument* of the first call-bearing top-level
statement (keyword arguments are processed only when at least one
positional argument exists, literal keyword values being stored via
`set_var`); each such variable is rendered on a line carrying its current
value and its `_infer_type_string` label ( `- name (type): value` ).  Other
free variables — e.g. names inside compound argument expressions — may be
omitted (see the counterexample).  Beyond the maximum recursion depth the
type label falls back to the concrete type name. -/
theorem c9_variable_rendering_amended :
    (∀ (fe : PyFrontend) (ex : ExecutorState) (code : String)
       (stmtsSl : List (PyStmt × String)) (args : List PyExpr)
       (kwargs : List (Option String × PyExpr)) (name : String),
       fe.parse code = some stmtsSl →
       code ≠ "" →
       firstCallStmt (stmtsSl.map (fun sp => sp.1)) = some (args, kwargs) →
       PyExpr.name name ∈ args →
       ∃ out ex2, get_variables fe ex code = .ok (out, ex2) ∧
         strContains out (renderLine ex2 name) = true) ∧
    (∀ (maxD d : Nat) (v : Value), d > maxD → v ≠ Value.none →
       inferTypeString maxD d v = v.typeName) := by
  constructor
  · intro fe ex code stmtsSl args kwargs name hparse hcode hfirst hmemarg
    unfold get_variables
    rw [if_neg hcode, hparse]
    dsimp only
    rw [hfirst]
    dsimp only
    have hmem : name ∈ (collectFromCall ex [] args kwargs).2 :=
      mem_collectFromCall ex [] args kwargs name hmemarg
    have hne : (collectFromCall ex [] args kwargs).2.isEmpty = false := by
      rcases h2 : (collectFromCall ex [] args kwargs).2 with _ | ⟨a, as⟩
      · rw [h2] at hmem
        cases hmem
      · rfl
    rw [hne]
    simp only [Bool.false_eq_true, if_false]
    rw [hne]
    simp only [Bool.false_eq_true, if_false]
    refine ⟨_, _, rfl, ?_⟩
    refine strContains_joinNl _ _ ?_
    exact List.mem_map_of_mem _ hmem
  · intro maxD d v hd hv
    revert hv
    cases v <;> intro hv
    case none => exact absurd rfl hv
    all_goals simp [inferTypeString, hd, Value.typeName]

/-- Closed instance of `c9_variable_rendering_amended`: the bare-name
argument `y` of `f(y, x + 1)` is covered by the rendering, and the type
label of an `int` past the depth bound is its type name. -/
theorem c9_variable_rendering_amended_witness :
    (∃ out ex2, get_variables feC9 exC9 c9code = .ok (out, ex2) ∧
       strContains out (renderLine ex2 "y") = true) ∧
    inferTypeString 2 3 (Value.int 5) = (Value.int 5).typeName :=
  ⟨c9_variable_rendering_amended.1 feC9 exC9 c9code
      [(c9stmt, c9code)]
      [PyExpr.name "y", PyExpr.binOp (PyExpr.name "x") (PyExpr.const (Value.int 1))] []
      "y" rfl (by decide) rfl (List.mem_cons_self _ _),
   c9_variable_rendering_amended.2 2 3 (Value.int 5) (by decide) (by intro h; cases h)⟩

/-! ## C6 — traversal completeness: basic tree and preorder lemmas -/

/-- Structural induction for the nested `Tree` type. -/
theorem tree_ind (motive : Tree → Prop)
    (h : ∀ cs, (∀ c ∈ cs, motive c) → motive (.node cs)) : ∀ t, motive t := by
  suffices hs : ∀ (n : Nat) (t : Tree), sizeOf t ≤ n → motive t from
    fun t => hs (sizeOf t) t le_rfl
  intro n
  induction n with
  | zero =>
    intro t ht
    cases t with
    | node cs =>
      have h2 : sizeOf (Tree.node cs) = 1 + sizeOf cs := by simp
      omega
  | succ n ihn =>
    intro t ht
    cases t with
    | node cs =>
      refine h cs ?_
      intro c hc
      refine ihn c ?_
      have h1 : sizeOf c < sizeOf cs := List.sizeOf_lt_of_mem hc
      have h2 : sizeOf (Tree.node cs) = 1 + sizeOf cs := by simp
      omega

theorem subtreeAt_nil (t : Tree) : subtreeAt t [] = some t := rfl

theorem subtreeAt_cons (t : Tree) (i : Nat) (p : Path) :
    subtreeAt t (i :: p) =
      (match t.children.get? i with
       | some c => subtreeAt c p
       | Option.none => Option.none) := rfl

theorem subtreeAt_cons_of_get (t : Tree) (i : Nat) (p : Path) (c : Tree)
    (h : t.children.get? i = some c) : subtreeAt t (i :: p) = subtreeAt c p := by
  rw [subtreeAt_cons, h]

theorem validPath_nil (t : Tree) : validPath t [] := by
  simp [validPath, subtreeAt_nil]

theorem validPath_cons (t : Tree) (i : Nat) (p : Path) :
    validPath t (i :: p) ↔ ∃ c, t.children.get? i = some c ∧ validPath c p := by
  unfold validPath
  rw [subtreeAt_cons]
  cases h : t.children.get? i with
  | none => simp
  | some c => simp

theorem preorder_node (cs : List Tree) :
    preorder (.node cs) = [] :: preorderChildren 0 cs := rfl

theorem preorderChildren_nil (i : Nat) : preorderChildren i [] = [] := rfl

theorem preorderChildren_cons (i : Nat) (c : Tree) (cs : List Tree) :
    preorderChildren i (c :: cs) =
      (preorder c).map (fun q => i :: q) ++ preorderChildren (i + 1) cs := rfl

theorem nil_mem_preorder (t : Tree) : [] ∈ preorder t := by
  cases t with
  | node cs =>
    rw [preorder_node]
    exact List.mem_cons_self _ _

/-- Membership in the children part of a preorder listing. -/
theorem mem_preorderChildren (x : Path) :
    ∀ (cs : List Tree) (k : Nat),
      x ∈ preorderChildren k cs ↔
        ∃ j c r, cs.get? j = some c ∧ x = (k + j) :: r ∧ r ∈ preorder c := by
  intro cs
  induction cs with
  | nil =>
    intro k
    simp [preorderChildren_nil]
  | cons c0 rest ih =>
    intro k
    rw [preorderChildren_cons]
    simp only [List.mem_append, List.mem_map]
    constructor
    · rintro (⟨r, hr, rfl⟩ | hx)
      · exact ⟨0, c0, r, rfl, by simp, hr⟩
      · obtain ⟨j, c, r, hg, hx, hr⟩ := (ih (k + 1)).mp hx
        have hkj : k + 1 + j = k + (j + 1) := by omega
        exact ⟨j + 1, c, r, hg, by rw [hx, hkj], hr⟩
    · rintro ⟨j, c, r, hg, hx, hr⟩
      cases j with
      | zero =>
        left
        have hc : c0 = c := by
          have := hg
          simp only [List.get?_cons_zero] at this
          exact Option.some.inj this
        refine ⟨r, hc ▸ hr, ?_⟩
        rw [hx]
        simp
      | succ j' =>
        right
        refine (ih (k + 1)).mpr ⟨j', c, r, hg, ?_, hr⟩
        rw [hx]
        have hkj : k + (j' + 1) = k + 1 + j' := by omega
        rw [hkj]

/-- Preorder lists exactly the valid paths. -/
theorem mem_preorder (t : Tree) : ∀ p, p ∈ preorder t ↔ validPath t p := by
  induction t using tree_ind with
  | _ cs ih =>
    intro p
    cases p with
    | nil =>
      simp [nil_mem_preorder, validPath_nil]
    | cons i q =>
      rw [preorder_node, validPath_cons]
      constructor
      · intro hmem
        have hx : (i :: q) ∈ preorderChildren 0 cs := by
          rcases List.mem_cons.mp hmem with h1 | h2
          · cases h1
          · exact h2
        obtain ⟨j, c, r, hg, hx, hr⟩ := (mem_preorderChildren _ cs 0).mp hx
        have hx' : i :: q = j :: r := by simpa using hx
        obtain ⟨hj, hrq⟩ := List.cons.inj hx'
        subst hj
        subst hrq
        exact ⟨c, hg, (ih c (List.get?_mem hg) q).mp hr⟩
      · rintro ⟨c, hg, hv⟩
        refine List.mem_cons_of_mem _ ?_
        refine (mem_preorderChildren _ cs 0).mpr ⟨i, c, q, hg, by simp, ?_⟩
        exact (ih c (List.get?_mem hg) q).mpr hv

theorem children_node (cs : List Tree) : (Tree.node cs).children = cs := rfl

theorem prefixThrough_nil (t : Tree) : prefixThrough t [] = [[]] := rfl

theorem prefixThrough_cons_eq (t : Tree) (i : Nat) (p : Path) :
    prefixThrough t (i :: p) =
      (match t.children.get? i with
       | Option.none => [[]]
       | some c =>
         [] :: (preorderChildren 0 (t.children.take i) ++
           (prefixThrough c p).map (fun q => i :: q))) := rfl

theorem prefixThrough_cons (t : Tree) (i : Nat) (p : Path) (c : Tree)
    (h : t.children.get? i = some c) :
    prefixThrough t (i :: p) =
      [] :: (preorderChildren 0 (t.children.take i) ++
        (prefixThrough c p).map (fun q => i :: q)) := by
  rw [prefixThrough_cons_eq, h]

theorem preSuccT_nil (t : Tree) :
    preSuccT t [] = if t.children.length > 0 then some [0] else Option.none := rfl

theorem preSuccT_cons (t : Tree) (i : Nat) (p : Path) :
    preSuccT t (i :: p) =
      (match t.children.get? i with
       | Option.none => Option.none
       | some c =>
         match preSuccT c p with
         | some q => some (i :: q)
         | Option.none =>
           if i + 1 < t.children.length then some [i + 1] else Option.none) := rfl

theorem preorderChildren_append :
    ∀ (l₁ l₂ : List Tree) (k : Nat),
      preorderChildren k (l₁ ++ l₂) =
        preorderChildren k l₁ ++ preorderChildren (k + l₁.length) l₂ := by
  intro l₁
  induction l₁ with
  | nil =>
    intro l₂ k
    simp [preorderChildren_nil]
  | cons c cs ih =>
    intro l₂ k
    rw [List.cons_append, preorderChildren_cons, preorderChildren_cons, ih, List.append_assoc]
    have hl : k + 1 + cs.length = k + (c :: cs).length := by
      simp [List.length_cons]
      omega
    rw [hl]

theorem preorderChildren_singleton (k : Nat) (c : Tree) :
    preorderChildren k [c] = (preorder c).map (fun q => k :: q) := by
  rw [preorderChildren_cons, preorderChildren_nil, List.append_nil]

/-- `prefixThrough t p` ends with `p` itself. -/
theorem prefixThrough_ends (p : Path) :
    ∀ t, validPath t p → ∃ A, prefixThrough t p = A ++ [p] := by
  induction p with
  | nil =>
    intro t _
    exact ⟨[], rfl⟩
  | cons i q ih =>
    intro t hv
    obtain ⟨c, hg, hvc⟩ := (validPath_cons t i q).mp hv
    obtain ⟨A, hA⟩ := ih c hvc
    refine ⟨[] :: (preorderChildren 0 (t.children.take i) ++ A.map (fun r => i :: r)), ?_⟩
    rw [prefixThrough_cons _ _ _ _ hg, hA]
    simp [List.map_append]

/-- The index witness of a `get?` hit. -/
theorem get?_lt_length {α : Type} {l : List α} {i : Nat} {a : α} (h : l.get? i = some a) :
    i < l.length := by
  rcases List.get?_eq_some.mp h with ⟨hi, _⟩
  exact hi

/-- `take (i + 1)` splits off the `i`-th element. -/
theorem take_succ_of_get? {α : Type} {l : List α} {i : Nat} {a : α} (h : l.get? i = some a) :
    l.take (i + 1) = l.take i ++ [a] := by
  rw [List.take_succ]
  have h' : l[i]? = some a := by rw [← List.get?_eq_getElem?]; exact h
  rw [h']
  rfl

/-- When a node has no preorder successor, its prefix is the whole
preorder. -/
theorem prefixThrough_last (p : Path) :
    ∀ t, validPath t p → preSuccT t p = Option.none → prefixThrough t p = preorder t := by
  induction p with
  | nil =>
    intro t hv hs
    cases t with
    | node cs =>
      rw [preSuccT_nil] at hs
      have hcs : cs = [] := by
        by_cases hl : (Tree.node cs).children.length > 0
        · rw [if_pos hl] at hs
          cases hs
        · rw [children_node] at hl
          exact List.length_eq_zero.mp (by omega)
      subst hcs
      rw [prefixThrough_nil, preorder_node, preorderChildren_nil]
  | cons i q ih =>
    intro t hv hs
    obtain ⟨c, hg, hvc⟩ := (validPath_cons t i q).mp hv
    rw [preSuccT_cons, hg] at hs
    dsimp only at hs
    cases hi : preSuccT c q with
    | some r =>
      rw [hi] at hs
      cases hs
    | none =>
      rw [hi] at hs
      have hlen : ¬ (i + 1 < t.children.length) := by
        intro hcon
        rw [if_pos hcon] at hs
        cases hs
      have hilen : i < t.children.length := get?_lt_length hg
      have hieq : i + 1 = t.children.length := by omega
      rw [prefixThrough_cons _ _ _ _ hg, ih c hvc hi]
      cases t with
      | node cs =>
        rw [children_node] at hg hilen hieq ⊢
        rw [preorder_node]
        congr 1
        have htake1 : (cs.take i).length = i := by
          rw [List.length_take]
          omega
        calc preorderChildren 0 (cs.take i) ++ (preorder c).map (fun q => i :: q)
            = preorderChildren 0 (cs.take i) ++ preorderChildren i [c] := by
              rw [preorderChildren_singleton]
          _ = preorderChildren 0 (cs.take i ++ [c]) := by
              rw [preorderChildren_append, Nat.zero_add, htake1]
          _ = preorderChildren 0 (cs.take (i + 1)) := by
              rw [take_succ_of_get? hg]
          _ = preorderChildren 0 cs := by
              rw [hieq, List.take_length]

/-- Stepping to the preorder successor extends the prefix by exactly that
node. -/
theorem prefixThrough_succ (p : Path) :
    ∀ t q, validPath t p → preSuccT t p = some q →
      validPath t q ∧ prefixThrough t q = prefixThrough t p ++ [q] := by
  induction p with
  | nil =>
    intro t q hv hs
    rw [preSuccT_nil] at hs
    by_cases hl : t.children.length > 0
    · rw [if_pos hl] at hs
      have hq : [0] = q := Option.some.inj hs
      subst hq
      have hg0 : t.children.get? 0 = some (t.children.get ⟨0, hl⟩) := List.get?_eq_get hl
      constructor
      · exact (validPath_cons t 0 []).mpr ⟨_, hg0, validPath_nil _⟩
      · rw [prefixThrough_nil, prefixThrough_cons _ _ _ _ hg0, prefixThrough_nil]
        simp [preorderChildren_nil]
    · rw [if_neg hl] at hs
      cases hs
  | cons i p' ih =>
    intro t q hv hs
    obtain ⟨c, hg, hvc⟩ := (validPath_cons t i p').mp hv
    rw [preSuccT_cons, hg] at hs
    dsimp only at hs
    cases hi : preSuccT c p' with
    | some r =>
      rw [hi] at hs
      have hq : i :: r = q := Option.some.inj hs
      subst hq
      obtain ⟨hvr, hpfx⟩ := ih c r hvc hi
      constructor
      · exact (validPath_cons t i r).mpr ⟨c, hg, hvr⟩
      · rw [prefixThrough_cons _ _ _ _ hg, prefixThrough_cons _ _ _ _ hg, hpfx]
        simp [List.map_append]
    | none =>
      rw [hi] at hs
      by_cases hlt : i + 1 < t.children.length
      · rw [if_pos hlt] at hs
        have hq : [i + 1] = q := Option.some.inj hs
        subst hq
        have hg1 : t.children.get? (i + 1) = some (t.children.get ⟨i + 1, hlt⟩) :=
          List.get?_eq_get hlt
        constructor
        · exact (validPath_cons t (i + 1) []).mpr ⟨_, hg1, validPath_nil _⟩
        · rw [prefixThrough_cons _ _ _ _ hg1, prefixThrough_cons _ _ _ _ hg,
            prefixThrough_last p' c hvc hi, prefixThrough_nil]
          have htake1 : (t.children.take i).length = i := by
            rw [List.length_take]
            have := get?_lt_length hg
            omega
          have hsplit : t.children.take (i + 1) = t.children.take i ++ [c] :=
            take_succ_of_get? hg
          rw [hsplit, preorderChildren_append, Nat.zero_add, htake1,
            preorderChildren_singleton]
          simp
      · rw [if_neg hlt] at hs
        cases hs

/-- The prefix through any valid node is an initial segment of the full
preorder. -/
theorem preorder_eq_prefixThrough_append (p : Path) :
    ∀ t, validPath t p → ∃ rest, preorder t = prefixThrough t p ++ rest := by
  induction p with
  | nil =>
    intro t _
    cases t with
    | node cs =>
      exact ⟨preorderChildren 0 cs, by rw [preorder_node, prefixThrough_nil]; rfl⟩
  | cons i q ih =>
    intro t hv
    obtain ⟨c, hg, hvc⟩ := (validPath_cons t i q).mp hv
    obtain ⟨restc, hrc⟩ := ih c hvc
    have hilen : i < t.children.length := get?_lt_length hg
    have htake1 : (t.children.take i).length = i := by
      rw [List.length_take]
      omega
    refine ⟨restc.map (fun r => i :: r) ++
      preorderChildren (i + 1) (t.children.drop (i + 1)), ?_⟩
    cases t with
    | node cs =>
      rw [children_node] at hg hilen htake1 ⊢
      rw [preorder_node, prefixThrough_cons (Tree.node cs) i q c hg, children_node]
      have hsplit : cs = (cs.take i ++ [c]) ++ cs.drop (i + 1) := by
        rw [← take_succ_of_get? hg, List.take_append_drop]
      conv_lhs => rw [hsplit]
      rw [preorderChildren_append, preorderChildren_append, Nat.zero_add, htake1,
        preorderChildren_singleton, hrc, List.map_append]
      have hlen2 : (cs.take i ++ [c]).length = i + 1 := by
        rw [List.length_append, htake1]
        rfl
      rw [hlen2]
      simp [List.append_assoc]

/-! ### Simulation of `CodeNode.next` inside a child subtree -/

theorem findPendingIdx_congr (st st' : Path → NodeStatus) (b b' : Path)
    (h : ∀ j, st (b ++ [j]) = st' (b' ++ [j])) :
    ∀ l, findPendingIdx st b l = findPendingIdx st' b' l := by
  intro l
  induction l with
  | nil => rfl
  | cons j js ih =>
    unfold findPendingIdx
    rw [h j]
    by_cases hj : st' (b' ++ [j]) = .pending
    · rw [if_pos hj, if_pos hj]
    · rw [if_neg hj, if_neg hj]
      exact ih

theorem childScan_cons (t c : Tree) (st : Path → NodeStatus) (i : Nat) (q : Path)
    (hg : t.children.get? i = some c) :
    childScan t st (i :: q) =
      Option.map (fun r => i :: r) (childScan c (fun r => st (i :: r)) q) := by
  unfold childScan
  rw [subtreeAt_cons_of_get t i q c hg]
  cases hsa : subtreeAt c q with
  | none => rfl
  | some d =>
    dsimp only
    rw [findPendingIdx_congr st (fun r => st (i :: r)) (i :: q) q (fun j => rfl)
      (List.range d.children.length)]
    cases findPendingIdx (fun r => st (i :: r)) q (List.range d.children.length) with
    | none => rfl
    | some idx => rfl

theorem sibScan_cons (t c : Tree) (st : Path → NodeStatus) (i : Nat) (qs : Path) (k : Nat)
    (hg : t.children.get? i = some c) :
    sibScan t st (i :: qs) k =
      Option.map (fun r => i :: r) (sibScan c (fun r => st (i :: r)) qs k) := by
  unfold sibScan
  rw [subtreeAt_cons_of_get t i qs c hg]
  cases hsa : subtreeAt c qs with
  | none => rfl
  | some d =>
    dsimp only
    rw [findPendingIdx_congr st (fun r => st (i :: r)) (i :: qs) qs (fun j => rfl)
      (List.range' (k + 1) (d.children.length - (k + 1)))]
    cases findPendingIdx (fun r => st (i :: r)) qs
        (List.range' (k + 1) (d.children.length - (k + 1))) with
    | none => rfl
    | some idx => rfl

theorem nextAux_cons_eq (t : Tree) (st : Path → NodeStatus) (k : Nat) (rps : List Nat) :
    nextAux t st (k :: rps) =
      ((sibScan t st rps.reverse k).orElse (fun _ => childScan t st rps.reverse)).orElse
        (fun _ => nextAux t st rps) := rfl

theorem nextAux_append (t c : Tree) (st : Path → NodeStatus) (i : Nat)
    (hg : t.children.get? i = some c) :
    ∀ rq, nextAux t st (rq ++ [i]) =
      (match nextAux c (fun r => st (i :: r)) rq with
       | some r => some (i :: r)
       | Option.none => (sibScan t st [] i).orElse (fun _ => childScan t st [])) := by
  intro rq
  induction rq with
  | nil =>
    show ((sibScan t st ([] : Path) i).orElse (fun _ => childScan t st [])).orElse
        (fun _ => nextAux t st []) = _
    cases hs : sibScan t st [] i with
    | some r => rfl
    | none =>
      cases hc2 : childScan t st [] with
      | some r => rfl
      | none => rfl
  | cons k rq' ih =>
    show ((sibScan t st (rq' ++ [i]).reverse k).orElse
        (fun _ => childScan t st (rq' ++ [i]).reverse)).orElse
        (fun _ => nextAux t st (rq' ++ [i])) = _
    have hrev : (rq' ++ [i]).reverse = i :: rq'.reverse := by simp
    rw [hrev, sibScan_cons t c st i rq'.reverse k hg, childScan_cons t c st i rq'.reverse hg,
      ih, nextAux_cons_eq c (fun r => st (i :: r)) k rq']
    cases hs : sibScan c (fun r => st (i :: r)) rq'.reverse k with
    | some r => rfl
    | none =>
      cases hc2 : childScan c (fun r => st (i :: r)) rq'.reverse with
      | some r => rfl
      | none =>
        cases hn : nextAux c (fun r => st (i :: r)) rq' with
        | some r => rfl
        | none => rfl

/-- `CodeNode.next` at a node inside child `i` behaves like `next` within
that child's subtree, falling back — when the child subtree is exhausted —
to the root-level forward sibling scan followed by the root's child scan. -/
theorem nextPath_cons_sim (t c : Tree) (st : Path → NodeStatus) (i : Nat) (q : Path)
    (hg : t.children.get? i = some c) :
    nextPath t st (i :: q) =
      (match nextPath c (fun r => st (i :: r)) q with
       | some r => some (i :: r)
       | Option.none => (sibScan t st [] i).orElse (fun _ => childScan t st [])) := by
  show (childScan t st (i :: q)).orElse (fun _ => nextAux t st (i :: q).reverse) = _
  have hrev : (i :: q).reverse = q.reverse ++ [i] := by simp
  rw [hrev, childScan_cons t c st i q hg, nextAux_append t c st i hg q.reverse]
  show _ = (match (childScan c (fun r => st (i :: r)) q).orElse
      (fun _ => nextAux c (fun r => st (i :: r)) q.reverse) with
    | some r => some (i :: r)
    | Option.none => (sibScan t st [] i).orElse (fun _ => childScan t st []))
  cases h1 : childScan c (fun r => st (i :: r)) q with
  | some r => rfl
  | none =>
    cases h2 : nextAux c (fun r => st (i :: r)) q.reverse with
    | some r => rfl
    | none => rfl

/-! ### Membership in `prefixThrough`, for the status assignment -/

theorem nil_mem_prefixThrough (t : Tree) (p : Path) : [] ∈ prefixThrough t p := by
  cases p with
  | nil => simp [prefixThrough_nil]
  | cons i q =>
    rw [prefixThrough_cons_eq]
    cases t.children.get? i with
    | none => simp
    | some c => simp

theorem cons_mem_prefixThrough (t c : Tree) (i : Nat) (q r : Path)
    (hg : t.children.get? i = some c) :
    (i :: r) ∈ prefixThrough t (i :: q) ↔ r ∈ prefixThrough c q := by
  rw [prefixThrough_cons _ _ _ _ hg]
  simp only [List.mem_cons, List.mem_append, List.mem_map]
  constructor
  · rintro (h0 | hpc | ⟨r', hr', he⟩)
    · cases h0
    · exfalso
      obtain ⟨j, c', r', hgj, hx, _⟩ := (mem_preorderChildren _ _ 0).mp hpc
      have hji : i = j := by
        have hx' : i :: r = j :: r' := by simpa using hx
        exact (List.cons.inj hx').1
      have hjlt : j < (t.children.take i).length := get?_lt_length hgj
      have : (t.children.take i).length ≤ i := by
        rw [List.length_take]
        omega
      omega
    · have := (List.cons.inj he).2
      rw [← this]
      exact hr'
  · intro h
    exact Or.inr (Or.inr ⟨r, h, rfl⟩)

theorem singleton_mem_prefixThrough_lt (t c cj : Tree) (i j : Nat) (q : Path)
    (hg : t.children.get? i = some c) (hj : j < i) (hgj : t.children.get? j = some cj) :
    [j] ∈ prefixThrough t (i :: q) := by
  rw [prefixThrough_cons _ _ _ _ hg]
  refine List.mem_cons_of_mem _ (List.mem_append_left _ ?_)
  refine (mem_preorderChildren _ _ 0).mpr ⟨j, cj, [], ?_, by simp, nil_mem_preorder cj⟩
  rw [List.get?_eq_getElem?, List.getElem?_take_of_lt hj, ← List.get?_eq_getElem?]
  exact hgj

theorem singleton_mem_prefixThrough_self (t c : Tree) (i : Nat) (q : Path)
    (hg : t.children.get? i = some c) :
    [i] ∈ prefixThrough t (i :: q) :=
  (cons_mem_prefixThrough t c i q [] hg).mpr (nil_mem_prefixThrough c q)

theorem singleton_not_mem_prefixThrough_gt (t c : Tree) (i j : Nat) (q : Path)
    (hg : t.children.get? i = some c) (hj : i < j) :
    [j] ∉ prefixThrough t (i :: q) := by
  rw [prefixThrough_cons _ _ _ _ hg]
  intro h
  rcases List.mem_cons.mp h with h0 | h1
  · cases h0
  rcases List.mem_append.mp h1 with hpc | hmap
  · obtain ⟨j', c', r', hgj, hx, _⟩ := (mem_preorderChildren _ _ 0).mp hpc
    have hjj : j = j' := by
      have hx' : j :: ([] : Path) = j' :: r' := by simpa using hx
      exact (List.cons.inj hx').1
    have hjlt : j' < (t.children.take i).length := get?_lt_length hgj
    have : (t.children.take i).length ≤ i := by
      rw [List.length_take]
      omega
    omega
  · obtain ⟨r', _, he⟩ := List.mem_map.mp hmap
    have : i = j := (List.cons.inj he).1
    omega

theorem statusOfVisited_mem (vis : List Path) (p : Path) (h : p ∈ vis) :
    statusOfVisited vis p = .completed := by
  unfold statusOfVisited
  rw [if_pos h]

theorem statusOfVisited_not_mem (vis : List Path) (p : Path) (h : p ∉ vis) :
    statusOfVisited vis p = .pending := by
  unfold statusOfVisited
  rw [if_neg h]

theorem findPendingIdx_cons_pos (st : Path → NodeStatus) (b : Path) (k : Nat) (rest : List Nat)
    (h : st (b ++ [k]) = .pending) : findPendingIdx st b (k :: rest) = some k := by
  unfold findPendingIdx
  rw [if_pos h]

theorem findPendingIdx_none (st : Path → NodeStatus) (b : Path) :
    ∀ l, (∀ k ∈ l, st (b ++ [k]) ≠ .pending) → findPendingIdx st b l = Option.none := by
  intro l
  induction l with
  | nil => intro _; rfl
  | cons k ks ih =>
    intro h
    unfold findPendingIdx
    rw [if_neg (h k (List.mem_cons_self _ _))]
    exact ih (fun j hj => h j (List.mem_cons_of_mem _ hj))

theorem childScan_eval (t : Tree) (st : Path → NodeStatus) (p : Path) (sub : Tree)
    (hsub : subtreeAt t p = some sub) :
    childScan t st p =
      (findPendingIdx st p (List.range sub.children.length)).map (fun i => p ++ [i]) := by
  unfold childScan
  rw [hsub]

theorem sibScan_eval (t : Tree) (st : Path → NodeStatus) (ps : Path) (k : Nat) (sub : Tree)
    (hsub : subtreeAt t ps = some sub) :
    sibScan t st ps k =
      (findPendingIdx st ps (List.range' (k + 1) (sub.children.length - (k + 1)))).map
        (fun i => ps ++ [i]) := by
  unfold sibScan
  rw [hsub]

/-- The key step: with exactly the nodes up to `p` finished (all others
`PENDING`), `CodeNode.next` from `p` returns precisely `p`'s preorder
successor. -/
theorem nextPath_prefixThrough (t : Tree) :
    ∀ p, validPath t p →
      nextPath t (statusOfVisited (prefixThrough t p)) p = preSuccT t p := by
  induction t using tree_ind with
  | _ cs ihc =>
    intro p hv
    cases p with
    | nil =>
      rw [prefixThrough_nil, preSuccT_nil]
      by_cases hl : 0 < cs.length
      · obtain ⟨m, hm⟩ : ∃ m, cs.length = m + 1 := ⟨cs.length - 1, by omega⟩
        show (childScan (Tree.node cs) (statusOfVisited [[]]) []).orElse
            (fun _ => nextAux (Tree.node cs) (statusOfVisited [[]]) ([] : Path).reverse) = _
        rw [childScan_eval _ _ _ _ (subtreeAt_nil _), children_node, hm,
          List.range_succ_eq_map,
          findPendingIdx_cons_pos _ _ _ _ (statusOfVisited_not_mem _ _ (by simp))]
        rw [if_pos (by omega : m + 1 > 0)]
        rfl
      · have hcs : cs = [] := List.length_eq_zero.mp (by omega)
        subst hcs
        rfl
    | cons i q =>
      obtain ⟨c, hg, hvc⟩ := (validPath_cons _ _ _).mp hv
      rw [nextPath_cons_sim (Tree.node cs) c _ i q hg]
      have hstfun : (fun r => statusOfVisited (prefixThrough (Tree.node cs) (i :: q)) (i :: r)) =
          statusOfVisited (prefixThrough c q) := by
        funext r
        by_cases hr : r ∈ prefixThrough c q
        · rw [statusOfVisited_mem _ _ ((cons_mem_prefixThrough _ c i q r hg).mpr hr),
            statusOfVisited_mem _ _ hr]
        · rw [statusOfVisited_not_mem _ _
            (fun hcon => hr ((cons_mem_prefixThrough _ c i q r hg).mp hcon)),
            statusOfVisited_not_mem _ _ hr]
      rw [hstfun, ihc c (List.get?_mem hg) q hvc, preSuccT_cons, hg]
      dsimp only
      cases hi : preSuccT c q with
      | some r => rfl
      | none =>
        by_cases hlt : i + 1 < cs.length
        · rw [if_pos (by rw [children_node]; exact hlt)]
          obtain ⟨m, hm⟩ : ∃ m, cs.length - (i + 1) = m + 1 := ⟨cs.length - (i + 1) - 1, by omega⟩
          rw [sibScan_eval _ _ _ _ _ (subtreeAt_nil _), children_node, hm, List.range'_succ,
            findPendingIdx_cons_pos _ _ _ _
              (statusOfVisited_not_mem _ _
                (singleton_not_mem_prefixThrough_gt (Tree.node cs) c i (i + 1) q hg
                  (by omega)))]
          rfl
        · rw [if_neg (by rw [children_node]; exact hlt)]
          have hz : cs.length - (i + 1) = 0 := by omega
          rw [sibScan_eval _ _ _ _ _ (subtreeAt_nil _), children_node, hz]
          show (Option.map _ (findPendingIdx _ [] (List.range' (i + 1) 0))).orElse
              (fun _ => childScan (Tree.node cs) _ []) = Option.none
          rw [childScan_eval _ _ _ _ (subtreeAt_nil _), children_node]
          rw [findPendingIdx_none _ _ (List.range cs.length) ?_]
          · rfl
          · intro k hk
            have hklen : k < cs.length := List.mem_range.mp hk
            have hki : k ≤ i := by omega
            rcases Nat.lt_or_ge k i with hklt | hkge
            · obtain ⟨ck, hck⟩ : ∃ ck, cs.get? k = some ck :=
                ⟨cs.get ⟨k, hklen⟩, List.get?_eq_get hklen⟩
              rw [show (([] : Path) ++ [k]) = [k] from rfl,
                statusOfVisited_mem _ _
                  (singleton_mem_prefixThrough_lt (Tree.node cs) c ck i k q hg hklt hck)]
              intro hcon
              cases hcon
            · have hkeq : k = i := by omega
              subst hkeq
              rw [show (([] : Path) ++ [k]) = [k] from rfl,
                statusOfVisited_mem _ _
                  (singleton_mem_prefixThrough_self (Tree.node cs) c k q hg)]
              intro hcon
              cases hcon

/-! ### The run of the orchestrator loop visits the preorder listing -/

theorem runSteps_zero (t : Tree) (p : Path) (visited : List Path) :
    runSteps t 0 p visited = visited ++ [p] := rfl

theorem runSteps_succ (t : Tree) (fuel : Nat) (p : Path) (visited : List Path) :
    runSteps t (fuel + 1) p visited =
      (match nextPath t (statusOfVisited (visited ++ [p])) p with
       | some q => runSteps t fuel q (visited ++ [p])
       | Option.none => visited ++ [p]) := rfl

theorem runSteps_eq (t : Tree) :
    ∀ fuel p visited, validPath t p →
      prefixThrough t p = visited ++ [p] →
      (preorder t).length ≤ (prefixThrough t p).length + fuel →
      runSteps t fuel p visited = preorder t := by
  intro fuel
  induction fuel with
  | zero =>
    intro p visited hv hpfx hlen
    rw [runSteps_zero, ← hpfx]
    obtain ⟨rest, hrest⟩ := preorder_eq_prefixThrough_append p t hv
    have h1 := congrArg List.length hrest
    rw [List.length_append] at h1
    have h2 : rest = [] := List.length_eq_zero.mp (by omega)
    rw [hrest, h2, List.append_nil]
  | succ fuel ih =>
    intro p visited hv hpfx hlen
    rw [runSteps_succ, ← hpfx, nextPath_prefixThrough t p hv]
    cases hs : preSuccT t p with
    | none =>
      dsimp only
      exact prefixThrough_last p t hv hs
    | some q =>
      dsimp only
      obtain ⟨hvq, hpfxq⟩ := prefixThrough_succ p t q hv hs
      refine ih q (prefixThrough t p) hvq hpfxq ?_
      have h2 := congrArg List.length hpfxq
      rw [List.length_append] at h2
      simp only [List.length_singleton] at h2
      omega

theorem runTraversal_eq (t : Tree) : runTraversal t = preorder t := by
  show runSteps t (preorder t).length [] [] = preorder t
  refine runSteps_eq t (preorder t).length [] [] (validPath_nil t)
    (by rw [prefixThrough_nil]; rfl) ?_
  rw [prefixThrough_nil]
  exact Nat.le_add_left _ _

/-! ### No node appears twice in the preorder listing -/

theorem preorderChildren_nodup :
    ∀ (cs : List Tree) (k : Nat), (∀ c ∈ cs, (preorder c).Nodup) →
      (preorderChildren k cs).Nodup := by
  intro cs
  induction cs with
  | nil =>
    intro k _
    simp [preorderChildren_nil]
  | cons c cs ih =>
    intro k h
    rw [preorderChildren_cons]
    refine List.Nodup.append ?_ (ih (k + 1) (fun c2 hc2 => h c2 (List.mem_cons_of_mem _ hc2))) ?_
    · exact (List.nodup_map_iff (fun a b hab => (List.cons.inj hab).2)).mpr
        (h c (List.mem_cons_self _ _))
    · intro x hx1 hx2
      obtain ⟨q, _, hq⟩ := List.mem_map.mp hx1
      obtain ⟨j, c2, r2, _, hx2e, _⟩ := (mem_preorderChildren x cs (k + 1)).mp hx2
      rw [← hq] at hx2e
      have : k = k + 1 + j := (List.cons.inj hx2e).1
      omega

theorem preorder_nodup : ∀ t, (preorder t).Nodup := by
  intro t
  induction t using tree_ind with
  | _ cs ih =>
    rw [preorder_node]
    refine List.nodup_cons.mpr ⟨?_, preorderChildren_nodup cs 0 ih⟩
    intro hmem
    obtain ⟨j, c2, r2, _, hx, _⟩ := (mem_preorderChildren [] cs 0).mp hmem
    simp at hx

/-! ### The preorder listing respects the children-before-later-siblings
and sibling-list orders -/

theorem mem_prefixThrough_sib :
    ∀ (b : Path) (t : Tree) (r : Path) (i j : Nat), i < j →
      validPath t (b ++ i :: r) → validPath t (b ++ [j]) →
      (b ++ i :: r) ∈ prefixThrough t (b ++ [j]) := by
  intro b
  induction b with
  | nil =>
    intro t r i j hij hvx hvy
    simp only [List.nil_append] at *
    obtain ⟨ci, hgi, hvir⟩ := (validPath_cons t i r).mp hvx
    obtain ⟨cj, hgj, _⟩ := (validPath_cons t j []).mp hvy
    rw [prefixThrough_cons t j [] cj hgj]
    refine List.mem_cons_of_mem _ (List.mem_append_left _ ?_)
    refine (mem_preorderChildren _ _ 0).mpr
      ⟨i, ci, r, ?_, by simp, (mem_preorder ci r).mpr hvir⟩
    rw [List.get?_eq_getElem?, List.getElem?_take_of_lt hij, ← List.get?_eq_getElem?]
    exact hgi
  | cons k b2 ih =>
    intro t r i j hij hvx hvy
    have hx : (k :: b2) ++ i :: r = k :: (b2 ++ i :: r) := rfl
    have hy : (k :: b2) ++ [j] = k :: (b2 ++ [j]) := rfl
    rw [hx] at hvx ⊢
    rw [hy] at hvy ⊢
    obtain ⟨ck, hgk, hvck⟩ := (validPath_cons t k _).mp hvx
    obtain ⟨ck2, hgk2, hvck2⟩ := (validPath_cons t k _).mp hvy
    have hck : ck2 = ck := by
      rw [hgk] at hgk2
      exact (Option.some.inj hgk2).symm
    subst hck
    rw [prefixThrough_cons t k _ ck2 hgk]
    refine List.mem_cons_of_mem _ (List.mem_append_right _ ?_)
    exact List.mem_map.mpr ⟨b2 ++ i :: r, ih ck2 r i j hij hvck hvck2, rfl⟩

theorem idx_cons_self (a : Path) (l : List Path) : (a :: l).indexOf a = 0 := by
  simp [List.indexOf_cons]

theorem idx_cons_ne (a b : Path) (l : List Path) (h : b ≠ a) :
    (b :: l).indexOf a = l.indexOf a + 1 := by
  have hb : (b == a) = false := beq_eq_false_iff_ne.mpr h
  rw [List.indexOf_cons, hb]
  rfl

theorem idx_append_of_mem {a : Path} :
    ∀ {l₁ : List Path} (l₂ : List Path), a ∈ l₁ →
      (l₁ ++ l₂).indexOf a = l₁.indexOf a := by
  intro l₁
  induction l₁ with
  | nil =>
    intro l₂ h
    simp at h
  | cons d ts ih =>
    intro l₂ h
    by_cases hd : d = a
    · subst hd
      rw [List.cons_append, idx_cons_self, idx_cons_self]
    · rw [List.cons_append, idx_cons_ne a d _ hd, idx_cons_ne a d _ hd,
        ih l₂ (by rcases List.mem_cons.mp h with h1 | h1; exact absurd h1.symm hd; exact h1)]

theorem idx_append_of_not_mem {a : Path} :
    ∀ {l₁ : List Path} (l₂ : List Path), a ∉ l₁ →
      (l₁ ++ l₂).indexOf a = l₁.length + l₂.indexOf a := by
  intro l₁
  induction l₁ with
  | nil =>
    intro l₂ _
    simp
  | cons d ts ih =>
    intro l₂ h
    have hd : d ≠ a := fun he => h (he ▸ List.mem_cons_self _ _)
    rw [List.cons_append, idx_cons_ne a d _ hd, ih l₂ (fun hm => h (List.mem_cons_of_mem _ hm))]
    simp [List.length_cons]
    omega

theorem idx_lt_length {a : Path} :
    ∀ {l : List Path}, a ∈ l → l.indexOf a < l.length := by
  intro l
  induction l with
  | nil =>
    intro h
    simp at h
  | cons d ts ih =>
    intro h
    by_cases hd : d = a
    · subst hd
      rw [idx_cons_self]
      simp
    · rw [idx_cons_ne a d _ hd, List.length_cons]
      have : a ∈ ts := by
        rcases List.mem_cons.mp h with h1 | h1
        · exact absurd h1.symm hd
        · exact h1
      exact Nat.succ_lt_succ (ih this)

theorem preorder_index_lt (t : Tree) (b r : Path) (i j : Nat) (hij : i < j)
    (hvx : validPath t (b ++ i :: r)) (hvy : validPath t (b ++ [j])) :
    (preorder t).indexOf (b ++ i :: r) < (preorder t).indexOf (b ++ [j]) := by
  obtain ⟨A, hA⟩ := prefixThrough_ends (b ++ [j]) t hvy
  obtain ⟨rest, hrest⟩ := preorder_eq_prefixThrough_append (b ++ [j]) t hvy
  rw [hA] at hrest
  have hpre : preorder t = A ++ ((b ++ [j]) :: rest) := by
    rw [hrest]
    simp
  have hxm : (b ++ i :: r) ∈ A ++ [b ++ [j]] := by
    rw [← hA]
    exact mem_prefixThrough_sib b t r i j hij hvx hvy
  have hxy : (b ++ i :: r) ≠ (b ++ [j]) := by
    intro h
    have h2 := List.append_cancel_left h
    have hi2 := (List.cons.inj h2).1
    omega
  have hxA : (b ++ i :: r) ∈ A := by
    rcases List.mem_append.mp hxm with h | h
    · exact h
    · exact absurd (List.mem_singleton.mp h) hxy
  have hnd : (preorder t).Nodup := preorder_nodup t
  rw [hpre] at hnd ⊢
  have hynA : (b ++ [j]) ∉ A := by
    rcases List.nodup_append.mp hnd with ⟨_, _, hdis⟩
    intro hmem
    exact hdis hmem (List.mem_cons_self _ _)
  rw [idx_append_of_mem _ hxA, idx_append_of_not_mem _ hynA, idx_cons_self]
  have hlt := idx_lt_length hxA
  omega

/-- C6: on a tree built purely by successful expansions, the orchestrator's
loop (finish the current node, ask `CodeNode.next` for the next `PENDING`
node, repeat) visits exactly the tree's nodes, each exactly once, in
depth-first preorder — in particular all of a node's children (indeed its
whole subtree) are visited before any of its later siblings, and a node's
siblings are visited in their list order. -/
theorem c6_traversal_completeness (t : Tree) :
    runTraversal t = preorder t ∧
    (runTraversal t).Nodup ∧
    (∀ p, p ∈ runTraversal t ↔ validPath t p) ∧
    (∀ b r i j, i < j → validPath t (b ++ i :: r) → validPath t (b ++ [j]) →
      (runTraversal t).indexOf (b ++ i :: r) < (runTraversal t).indexOf (b ++ [j])) := by
  have he := runTraversal_eq t
  refine ⟨he, ?_, ?_, ?_⟩
  · rw [he]
    exact preorder_nodup t
  · intro p
    rw [he]
    exact mem_preorder t p
  · intro b r i j hij hvx hvy
    rw [he]
    exact preorder_index_lt t b r i j hij hvx hvy

/-- Concrete instantiation of C6's ordering clause on the two-child tree:
node `[0]` (a child of the root) is visited before its later sibling
`[1]`. -/
theorem c6_traversal_completeness_witness :
    runTraversal exTree = preorder exTree ∧
    (runTraversal exTree).indexOf ([] ++ 0 :: []) <
      (runTraversal exTree).indexOf ([] ++ [1]) := by
  obtain ⟨h1, _, _, h4⟩ := c6_traversal_completeness exTree
  exact ⟨h1, h4 [] [] 0 1 (by decide) (by decide) (by decide)⟩

end ReCode
